import Mathlib

/-!
Verification development for the Higgs-Helper physics-aware document chunker
(`src/rag/chunker.py`) and its data model (`src/rag/models.py`).

Strings are modelled as `List Char`, Python slices as `drop`/`take`, and the
three regular expressions of the chunker as explicit scanners with the exact
backtracking behaviour of the Python `re` module on these patterns.  Code
that can raise (`Chunk.__post_init__`) is modelled in the `Except` monad, and
the chunking loop is driven by explicit fuel; all universal theorems are
stated for every fuel value, so any terminating Python run is covered.
-/

namespace HiggsHelper

/-- Whitespace characters stripped by Python `str.strip()` (ASCII range). -/
def isPySpaceB (ch : Char) : Bool :=
  ch == ' ' || ch == '\t' || ch == '\n' || ch == '\r' || ch == '\x0b' || ch == '\x0c'

/-- Python `str.lower()`, modelled character-wise. -/
def pyLower (ch : Char) : Char := ch.toLower

/-- Python slice `s[a:b]` for natural indices. -/
def pySlice (c : List Char) (a b : Nat) : List Char := (c.drop a).take (b - a)

/-- Python `str.strip()`: drop whitespace from both ends. -/
def pyStrip (c : List Char) : List Char :=
  ((c.dropWhile isPySpaceB).reverse.dropWhile isPySpaceB).reverse

/-- Whether `pat` occurs in `c` starting exactly at index `i`. -/
def occursAtB (c : List Char) (i : Nat) (pat : List Char) : Bool :=
  decide ((c.drop i).take pat.length = pat)

/-- Python `str.rfind(pat)`: the largest index at which `pat` occurs, if any. -/
def pyRfind (s pat : List Char) : Option Nat :=
  (List.range (s.length + 1)).reverse.find? (fun i => occursAtB s i pat)

/-- Python `pat in s` substring containment. -/
def containsB (s pat : List Char) : Bool :=
  (List.range (s.length + 1)).any (fun i => occursAtB s i pat)

/-- Length of the maximal run of characters satisfying `p` starting at `i`. -/
def runLen (p : Char → Bool) (c : List Char) (i : Nat) : Nat :=
  ((c.drop i).takeWhile p).length

/-- Generic scanner reproducing `re.finditer`: at each position try `matchAt`;
on a match emit `(start, stop, payload)` and resume at `stop` (all the
patterns used here only produce non-empty matches), otherwise advance by one.
Fuel `c.length + 1` always suffices because every match is non-empty. -/
def scanAux {α : Type} (len : Nat) (matchAt : Nat → Option (Nat × α)) :
    Nat → Nat → List (Nat × Nat × α)
  | 0, _ => []
  | fuel + 1, i =>
    if i < len then
      match matchAt i with
      | some (e, a) => (i, e, a) :: scanAux len matchAt fuel e
      | none => scanAux len matchAt fuel (i + 1)
    else []

/-- Match of `\$\$([^$]+)\$\$` (DOTALL) at position `i`: two dollars, a
non-empty maximal run of non-dollar characters, two dollars.  The greedy
`[^$]+` admits no backtracking on this pattern. -/
def displayMatchAt (c : List Char) (i : Nat) : Option (Nat × Unit) :=
  if c.get? i = some '$' ∧ c.get? (i+1) = some '$' then
    let r := runLen (fun ch => ch != '$') c (i + 2)
    if 1 ≤ r ∧ c.get? (i+2+r) = some '$' ∧ c.get? (i+3+r) = some '$' then
      some (i + 4 + r, ())
    else none
  else none

/-- All display-math matches, in document order. -/
def displayMatches (c : List Char) : List (Nat × Nat × Unit) :=
  scanAux c.length (displayMatchAt c) (c.length + 1) 0

/-- Match of `(?<!\$)\$([^$\n]+)\$(?!\$)` at position `i`.  The run cannot
contain a dollar, so the closing dollar is forced to be the first dollar
after the opening one and no backtracking arises. -/
def inlineMatchAt (c : List Char) (i : Nat) : Option (Nat × Unit) :=
  if c.get? i = some '$' ∧ (i = 0 ∨ ¬ c.get? (i-1) = some '$') then
    let r := runLen (fun ch => ch != '$' && ch != '\n') c (i + 1)
    if 1 ≤ r ∧ c.get? (i+1+r) = some '$' ∧ ¬ c.get? (i+2+r) = some '$' then
      some (i + 2 + r, ())
    else none
  else none

/-- All inline-math matches, in document order. -/
def inlineMatches (c : List Char) : List (Nat × Nat × Unit) :=
  scanAux c.length (inlineMatchAt c) (c.length + 1) 0

/-- The triple-backtick fence delimiter. -/
def fenceL : List Char := "```".toList

/-- Characters matched by `\w` (ASCII range). -/
def isWordCharB (ch : Char) : Bool := ch.isAlphanum || ch == '_'

/-- Smallest position `k ≥ j` at which a fence occurs (the lazy `.*?`). -/
def findFenceFrom (c : List Char) (j : Nat) : Option Nat :=
  (List.range (c.length + 1)).find? (fun k => decide (j ≤ k) && occursAtB c k fenceL)

/-- Match of the code-fence pattern at `i`: opening fence, a maximal
run of word characters (the language tag), a newline, lazily as little
content as possible, then a closing fence.  `\w*` cannot backtrack because
no word character is a newline. -/
def codeMatchAt (c : List Char) (i : Nat) : Option (Nat × List Char) :=
  if occursAtB c i fenceL then
    let w := runLen isWordCharB c (i + 3)
    if c.get? (i+3+w) = some '\n' then
      match findFenceFrom c (i + 4 + w) with
      | some k => some (k + 3, pySlice c (i + 3) (i + 3 + w))
      | none => none
    else none
  else none

/-- All fenced-code matches, in document order; payload is the language tag. -/
def codeMatches (c : List Char) : List (Nat × Nat × List Char) :=
  scanAux c.length (codeMatchAt c) (c.length + 1) 0

/-- Largest position `p` with `lo ≤ p < hi` whose character is not a newline
(used by the end-of-string backtracking of the header pattern). -/
def lastNonNl (c : List Char) (lo hi : Nat) : Option Nat :=
  (List.range hi).reverse.find? (fun p => decide (lo ≤ p) && !(c.get? p == some '\n'))

/-- Match of the MULTILINE header pattern at a line start `i`: one to six
hashes, at least one whitespace character (greedily, which may cross line
breaks), then at least one non-newline character up to the line end.  When
the greedy whitespace run reaches the end of the string the engine
backtracks to the last non-newline whitespace character, which becomes the
(single-character) title group. -/
def headerMatchAt (c : List Char) (i : Nat) : Option (Nat × List Char) :=
  if i = 0 ∨ c.get? (i-1) = some '\n' then
    let hr := runLen (fun ch => ch == '#') c i
    if 1 ≤ hr ∧ hr ≤ 6 then
      let j := i + hr
      let w := runLen isPySpaceB c j
      if 1 ≤ w then
        let m := j + w
        if m < c.length then
          let t := runLen (fun ch => ch != '\n') c m
          some (m + t, pySlice c m (m + t))
        else
          match lastNonNl c (j + 1) m with
          | some p => some (p + 1, pySlice c p (p + 1))
          | none => none
      else none
    else none
  else none

/-- All header matches, in document order; payload is the raw title group. -/
def headerMatches (c : List Char) : List (Nat × Nat × List Char) :=
  scanAux c.length (headerMatchAt c) (c.length + 1) 0

/-- The kind of a protected region (chunker.py `ProtectedBlock.block_type`). -/
inductive BType where
  | latex_display
  | latex_inline
  | code
deriving DecidableEq, Repr

/-- A protected region of the document (chunker.py `ProtectedBlock`); `stop`
renders the Python field `end`, which is a reserved word in Lean.  The
verbatim `content` field is omitted: it is `text[start:end]` and no verified
property reads it. -/
structure ProtectedBlock where
  start : Nat
  stop : Nat
  btype : BType
deriving DecidableEq, Repr

/-- Stable insertion of a block into a start-sorted list. -/
def insertByStart (b : ProtectedBlock) : List ProtectedBlock → List ProtectedBlock
  | [] => [b]
  | x :: xs => if b.start ≤ x.start then b :: x :: xs else x :: insertByStart b xs

/-- Stable sort by `start`, as Python's `list.sort(key=lambda b: b.start)`. -/
def sortByStart (l : List ProtectedBlock) : List ProtectedBlock := l.foldr insertByStart []

/-- Embeds `PhysicsAwareChunker._find_protected_blocks`: display math, then
inline math, then fenced code, stably sorted by start position. -/
def find_protected_blocks (text : List Char) : List ProtectedBlock :=
  sortByStart
    ((displayMatches text).map (fun m => ⟨m.1, m.2.1, BType.latex_display⟩) ++
     (inlineMatches text).map (fun m => ⟨m.1, m.2.1, BType.latex_inline⟩) ++
     (codeMatches text).map (fun m => ⟨m.1, m.2.1, BType.code⟩))

/-- One section produced by the section splitter: `(title, text, offset)`. -/
structure Sec where
  title : List Char
  text : List Char
  off : Nat
deriving DecidableEq, Repr

/-- Where a header's section ends: at the next header, or the document end. -/
def secEndPos (c : List Char) : List (Nat × Nat × List Char) → Nat
  | [] => c.length
  | (s', _, _) :: _ => s'

/-- The per-header part of `_split_by_sections`: each header's section runs
from the header start to the next header start (or end of document), is
stripped, and is kept only if non-empty. -/
def buildSecs (c : List Char) : List (Nat × Nat × List Char) → List Sec
  | [] => []
  | (s, _, title) :: rest =>
    let st := pyStrip (pySlice c s (secEndPos c rest))
    (if st = [] then [] else [⟨pyStrip title, st, s⟩]) ++ buildSecs c rest

/-- Embeds `PhysicsAwareChunker._split_by_sections`. -/
def split_by_sections (c : List Char) : List Sec :=
  match headerMatches c with
  | [] => [⟨[], c, 0⟩]
  | (s0, _, _) :: _ =>
    let pre : List Sec :=
      if 0 < s0 then
        let pt := pyStrip (c.take s0)
        if pt = [] then [] else [⟨[], pt, 0⟩]
      else []
    pre ++ buildSecs c (headerMatches c)

/-- Embeds `PhysicsAwareChunker._has_latex`. -/
def has_latex (text : List Char) : Bool :=
  !(displayMatches text).isEmpty || !(inlineMatches text).isEmpty

/-- Embeds `PhysicsAwareChunker._has_code`: presence flag plus the first
fence's language tag (Python turns an empty tag into `None`). -/
def has_code (text : List Char) : Bool × Option (List Char) :=
  match codeMatches text with
  | [] => (false, none)
  | (_, _, lang) :: _ => (true, if lang = [] then none else some lang)

/-- Keywords classifying a chunk as a tutorial. -/
def tutorialKeywords : List (List Char) :=
  ["tutorial".toList, "example".toList, "step".toList, "how to".toList]

/-- Keywords classifying a chunk as reference material. -/
def referenceKeywords : List (List Char) :=
  ["detector".toList, "atlas".toList, "cms".toList, "tracker".toList, "calorimeter".toList]

/-- Embeds `PhysicsAwareChunker._classify_chunk_type`. -/
def classify_chunk_type (text : List Char) (hasLatex hasCode : Bool) : List Char :=
  let textLower := text.map pyLower
  if hasCode && hasLatex then "mixed".toList
  else if hasCode then "code".toList
  else if hasLatex then
    if 3 < (displayMatches text).length + (inlineMatches text).length then "equation".toList
    else "theory".toList
  else if tutorialKeywords.any (fun kw => containsB textLower kw) then "tutorial".toList
  else if referenceKeywords.any (fun kw => containsB textLower kw) then "reference".toList
  else "theory".toList

/-- A produced chunk with the metadata fields the verified properties read.
The lexicon-scan fields (`tags`, `physics_terms`, `detector_mentions`,
`particle_mentions`) and the hash `id` are pure functions of `text` that no
claim mentions; they are left out of this record. -/
structure ChunkR where
  text : List Char
  sectionTitle : List Char
  startChar : Nat
  endChar : Nat
  chunkIndex : Nat
  hasLatex : Bool
  hasCode : Bool
  codeLanguage : Option (List Char)
  chunkType : List Char
deriving DecidableEq, Repr

/-- Embeds `PhysicsAwareChunker._make_chunk` composed with the
`Chunk.__post_init__` validation from models.py, which raises `ValueError`
on empty text (modelled as `Except.error`). -/
def make_chunk (text sectionTitle : List Char) (startChar endChar chunkIndex : Nat) :
    Except String ChunkR :=
  if text = [] then .error "Chunk text cannot be empty"
  else
    .ok { text := text, sectionTitle := sectionTitle, startChar := startChar,
          endChar := endChar, chunkIndex := chunkIndex, hasLatex := has_latex text,
          hasCode := (has_code text).1, codeLanguage := (has_code text).2,
          chunkType := classify_chunk_type text (has_latex text) (has_code text).1 }

/-- The sentence terminators tried by the boundary search, in order. -/
def sentencePuncts : List (List Char) :=
  [". ".toList, ".\n".toList, "? ".toList, "?\n".toList, "! ".toList, "!\n".toList]

/-- The sentence-break loop of `_find_safe_boundary`: first punctuation whose
rightmost occurrence lies past one third of the window wins. -/
def find_sentence_break (searchText : List Char) (searchStart : Nat) :
    List (List Char) → Option Nat
  | [] => none
  | p :: ps =>
    match pyRfind searchText p with
    | some k =>
      if searchText.length / 3 < k then some (searchStart + k + p.length)
      else find_sentence_break searchText searchStart ps
    | none => find_sentence_break searchText searchStart ps

/-- The protected-block snap of `_find_safe_boundary`: the first block
strictly containing the absolute target end whose snapped end also fits the
section text replaces the target with its end. -/
def snapTargetEnd (text : List Char) (targetEnd : Nat) (blocks : List ProtectedBlock)
    (offset : Nat) : Nat :=
  let actualEnd := offset + targetEnd
  match blocks.find? (fun b =>
      decide (b.start < actualEnd) && decide (actualEnd < b.stop) &&
      decide (b.stop - offset ≤ text.length)) with
  | some b => b.stop - offset
  | none => targetEnd

/-- The backward natural-break search of `_find_safe_boundary` over the
window `searchText` starting at `searchStart`: a paragraph break past half
the window, else a sentence break past a third, else a line break past a
third, else nothing. -/
def backwardBreak (searchText : List Char) (searchStart : Nat) : Option Nat :=
  let para : Option Nat := match pyRfind searchText ['\n', '\n'] with
    | some pb => if searchText.length / 2 < pb then some (searchStart + pb + 2) else none
    | none => none
  match para with
  | some r => some r
  | none =>
    match find_sentence_break searchText searchStart sentencePuncts with
    | some r => some r
    | none =>
      match pyRfind searchText ['\n'] with
      | some lb => if searchText.length / 3 < lb then some (searchStart + lb + 1) else none
      | none => none

/-- Embeds `PhysicsAwareChunker._find_safe_boundary`: the block snap, then
the backward break search over the 200-character window, falling back to the
(possibly snapped) target. -/
def find_safe_boundary (text : List Char) (start targetEnd : Nat)
    (blocks : List ProtectedBlock) (offset : Nat) : Nat :=
  let tE := snapTargetEnd text targetEnd blocks offset
  let searchStart := max start (tE - 200)
  match backwardBreak (pySlice text searchStart tE) searchStart with
  | some r => r
  | none => tE

/-- Chunker configuration (constructor arguments of `PhysicsAwareChunker`). -/
structure Config where
  chunkSize : Nat
  overlap : Nat
  minChunkSize : Nat
  respectSections : Bool
deriving DecidableEq, Repr

/-- One iteration's resolved end position: the raw window end
`min(pos + chunk_size, len(text))`, passed through the safe-boundary search
whenever it falls short of the section end. -/
def stepEndPos (cfg : Config) (text : List Char) (blocks : List ProtectedBlock)
    (offset pos : Nat) : Nat :=
  let end0 := min (pos + cfg.chunkSize) text.length
  if end0 < text.length then find_safe_boundary text pos end0 blocks offset else end0

/-- One iteration's next cursor: rewind the end by `overlap` (or jump to the
section end), then guard against landing at or before the last chunk's
section-relative start. -/
def stepNextPos (cfg : Config) (text : List Char) (endPos lastStartRel : Nat) : Nat :=
  let pos1 := if endPos < text.length then endPos - cfg.overlap else text.length
  if pos1 ≤ lastStartRel then endPos else pos1

/-- The `while pos < len(text)` loop of `_create_chunks`, with explicit fuel.
`acc` holds the chunks emitted so far in reverse order, so the Python
`chunks[-1]` is the head.  A candidate at least `min_chunk_size` long (or the
first candidate of the section) becomes a new chunk; a shorter candidate is
absorbed into the previous chunk, keeping its start and index.  The cursor
then advances by `stepNextPos`.  (The `[]` case of the absorb branch is
unreachable: its guard implies `acc` is non-empty.) -/
def create_chunks_loop (cfg : Config) (text sectionTitle : List Char) (offset : Nat)
    (blocks : List ProtectedBlock) : Nat → Nat → Nat → List ChunkR → Except String (List ChunkR)
  | 0, _, _, _ => .error "out of fuel"
  | fuel + 1, pos, chunkIndex, acc =>
    if pos < text.length then
      let endPos := stepEndPos cfg text blocks offset pos
      let chunkText := pyStrip (pySlice text pos endPos)
      if cfg.minChunkSize ≤ chunkText.length ∨ acc = [] then
        match make_chunk chunkText sectionTitle (offset + pos) (offset + endPos) chunkIndex with
        | .error e => .error e
        | .ok ch =>
          create_chunks_loop cfg text sectionTitle offset blocks fuel
            (stepNextPos cfg text endPos (ch.startChar - offset)) (chunkIndex + 1) (ch :: acc)
      else
        match acc with
        | [] => .error "unreachable"
        | last :: rest =>
          match make_chunk (last.text ++ '\n' :: '\n' :: chunkText) sectionTitle
              last.startChar (offset + endPos) last.chunkIndex with
          | .error e => .error e
          | .ok ch =>
            create_chunks_loop cfg text sectionTitle offset blocks fuel
              (stepNextPos cfg text endPos (ch.startChar - offset)) chunkIndex (ch :: rest)
    else .ok acc.reverse

/-- Embeds `PhysicsAwareChunker._create_chunks`: a section no longer than
`chunk_size` becomes a single chunk spanning it whole; otherwise the sliding
window loop runs. -/
def create_chunks (cfg : Config) (text sectionTitle : List Char) (offset : Nat)
    (blocks : List ProtectedBlock) (startIndex fuel : Nat) : Except String (List ChunkR) :=
  if text.length ≤ cfg.chunkSize then
    match make_chunk text sectionTitle offset (offset + text.length) startIndex with
    | .error e => .error e
    | .ok ch => .ok [ch]
  else create_chunks_loop cfg text sectionTitle offset blocks fuel 0 startIndex []

/-- The per-section fold of `chunk_document`: each section is chunked with
the running document-wide index, and the lists are concatenated. -/
def chunk_sections (cfg : Config) (blocks : List ProtectedBlock) (fuel : Nat) :
    List Sec → Nat → Except String (List ChunkR)
  | [], _ => .ok []
  | s :: rest, idx =>
    match create_chunks cfg s.text s.title s.off blocks idx fuel with
    | .error e => .error e
    | .ok cs =>
      match chunk_sections cfg blocks fuel rest (idx + cs.length) with
      | .error e => .error e
      | .ok more => .ok (cs ++ more)

/-- The sections the pipeline iterates over (the `respect_sections` switch). -/
def sectionsOf (cfg : Config) (content : List Char) : List Sec :=
  if cfg.respectSections then split_by_sections content else [⟨[], content, 0⟩]

/-- Embeds `PhysicsAwareChunker.chunk_document` on a document's content.
Empty or whitespace-only content short-circuits to an empty chunk list (the
Python logs a warning); the `source`/`id` attributes only feed the omitted
metadata fields. -/
def chunk_document (cfg : Config) (fuel : Nat) (content : List Char) :
    Except String (List ChunkR) :=
  if pyStrip content = [] then .ok []
  else chunk_sections cfg (find_protected_blocks content) fuel (sectionsOf cfg content) 0

/-- The sections actually chunked by `chunk_document` (none for blank input). -/
def documentSections (cfg : Config) (content : List Char) : List Sec :=
  if pyStrip content = [] then [] else sectionsOf cfg content

/-! ### Data model (`src/rag/models.py`) -/

/-- Embeds the `ChunkMetadata` dataclass; `section_` renders the Python
field `section`, a reserved word in Lean. -/
structure ChunkMetadataP where
  source : List Char
  source_id : List Char
  section_ : List Char
  chunk_index : Nat
  chunk_type : List Char
  tags : List (List Char)
  has_latex : Bool
  has_code : Bool
  code_language : Option (List Char)
  start_char : Nat
  end_char : Nat
  physics_terms : List (List Char)
  detector_mentions : List (List Char)
  particle_mentions : List (List Char)

/-- The dictionary produced by `ChunkMetadata.to_dict`, with exactly the
fourteen keys the Python dict carries. -/
structure MetadataDict where
  source : List Char
  source_id : List Char
  section_ : List Char
  chunk_index : Nat
  chunk_type : List Char
  tags : List (List Char)
  has_latex : Bool
  has_code : Bool
  code_language : Option (List Char)
  start_char : Nat
  end_char : Nat
  physics_terms : List (List Char)
  detector_mentions : List (List Char)
  particle_mentions : List (List Char)

/-- Embeds `ChunkMetadata.to_dict`. -/
def metadata_to_dict (m : ChunkMetadataP) : MetadataDict :=
  { source := m.source, source_id := m.source_id, section_ := m.section_,
    chunk_index := m.chunk_index, chunk_type := m.chunk_type, tags := m.tags,
    has_latex := m.has_latex, has_code := m.has_code, code_language := m.code_language,
    start_char := m.start_char, end_char := m.end_char, physics_terms := m.physics_terms,
    detector_mentions := m.detector_mentions, particle_mentions := m.particle_mentions }

/-- Embeds `ChunkMetadata.from_dict` (the `.get` defaults are never needed
because `to_dict` writes every key). -/
def metadata_from_dict (d : MetadataDict) : ChunkMetadataP :=
  { source := d.source, source_id := d.source_id, section_ := d.section_,
    chunk_index := d.chunk_index, chunk_type := d.chunk_type, tags := d.tags,
    has_latex := d.has_latex, has_code := d.has_code, code_language := d.code_language,
    start_char := d.start_char, end_char := d.end_char, physics_terms := d.physics_terms,
    detector_mentions := d.detector_mentions, particle_mentions := d.particle_mentions }

/-- Embeds `generate_chunk_id` with the default `method="hash"`.  The SHA-256
digest of `f"{source}:{text[:100]}"` is abstracted by the preimage itself: it
is a deterministic function of `(source, first 100 characters of text)`,
which is all any verified property uses of it. -/
def generate_chunk_id (text source : List Char) : List Char :=
  source ++ ':' :: text.take 100

/-- Embeds the `Chunk` dataclass. -/
structure ChunkP where
  id : List Char
  text : List Char
  metadata : ChunkMetadataP
  embedding : Option (List Float)
  score : Option Float

/-- The dictionary produced by `Chunk.to_dict`; an absent `embedding`/`score`
key is modelled as `none` (Python never writes the key with value `None`,
and `from_dict` reads a missing key as `None`, so the two states coincide
observationally). -/
structure ChunkDict where
  id : List Char
  text : List Char
  metadata : MetadataDict
  embedding : Option (List Float)
  score : Option Float

/-- Construction of a `Chunk` through `__post_init__`: an empty id is
replaced by a generated one, and empty text raises `ValueError`. -/
def mk_chunk_value (id text : List Char) (metadata : ChunkMetadataP)
    (embedding : Option (List Float)) (score : Option Float) : Except String ChunkP :=
  let id' := if id = [] then generate_chunk_id text metadata.source else id
  if text = [] then .error "Chunk text cannot be empty"
  else .ok ⟨id', text, metadata, embedding, score⟩

/-- Embeds `Chunk.to_dict`. -/
def chunk_to_dict (c : ChunkP) : ChunkDict :=
  { id := c.id, text := c.text, metadata := metadata_to_dict c.metadata,
    embedding := c.embedding, score := c.score }

/-- Embeds `Chunk.from_dict`, which builds the metadata and then constructs
the chunk through `__post_init__`. -/
def chunk_from_dict (d : ChunkDict) : Except String ChunkP :=
  mk_chunk_value d.id d.text (metadata_from_dict d.metadata) d.embedding d.score

/-! ### Claim-support predicates -/

/-- A block lies wholly inside or wholly outside the covered range `[s, e)`
of a chunk (the spec's protected-block integrity property). -/
def blockRespected (b : ProtectedBlock) (s e : Nat) : Bool :=
  decide (b.stop ≤ s) || decide (e ≤ b.start) || (decide (s ≤ b.start) && decide (b.stop ≤ e))

/-- Checker for claim C1 on one document: every protected block of the
document is wholly inside or wholly outside every produced chunk's covered
range (vacuously true when the pipeline raises). -/
def respectsBlocksB (cfg : Config) (fuel : Nat) (content : List Char) : Bool :=
  match chunk_document cfg fuel content with
  | .error _ => true
  | .ok cs =>
    cs.all (fun c => (find_protected_blocks content).all
      (fun b => blockRespected b c.startChar c.endChar))

/-- The protected blocks of a document are pairwise disjoint. -/
def blocksDisjointB (content : List Char) : Bool :=
  (find_protected_blocks content).Pairwise
    (fun b b' => b.stop ≤ b'.start ∨ b'.stop ≤ b.start)

/-- The break delimiters the backward boundary search can return. -/
def boundaryDelims : List (List Char) :=
  ['\n', '\n'] :: ". ".toList :: ".\n".toList :: "? ".toList :: "?\n".toList ::
    "! ".toList :: "!\n".toList :: ['\n'] :: []

/-- No boundary delimiter occurrence overlaps any protected block's span. -/
def delimsClearOfBlocksB (content : List Char) : Bool :=
  (find_protected_blocks content).all (fun b =>
    boundaryDelims.all (fun d =>
      (List.range (content.length + 1)).all (fun i =>
        !(occursAtB content i d) || decide (i + d.length ≤ b.start) || decide (b.stop ≤ i))))

/-- Restatement of the claimed `chunk_type` decision procedure, following the
specification's wording clause by clause. -/
def chunkTypeSpec (text : List Char) (hasLatex hasCode : Bool) : List Char :=
  let lower := text.map pyLower
  let mathMatches := (displayMatches text).length + (inlineMatches text).length
  if hasLatex ∧ hasCode then "mixed".toList
  else if hasCode ∧ ¬ hasLatex then "code".toList
  else if hasLatex ∧ ¬ hasCode then
    if mathMatches > 3 then "equation".toList else "theory".toList
  else if tutorialKeywords.any (fun kw => containsB lower kw) then "tutorial".toList
  else if referenceKeywords.any (fun kw => containsB lower kw) then "reference".toList
  else "theory".toList

/-- A position is safe for a block list when it is strictly inside none of
the blocks. -/
def safePt (blocks : List ProtectedBlock) (p : Nat) : Prop :=
  ∀ b ∈ blocks, ¬(b.start < p ∧ p < b.stop)

/-- Coverage of one section's text by its chunk list, as claim C5 states it:
at least one chunk, the first starting at the section offset, the last
ending at the section's end, consecutive spans strictly advancing while
overlapping or abutting, and every span inside the section. -/
def sectionCovered (off len : Nat) (cs : List ChunkR) : Prop :=
  cs ≠ [] ∧
  (∀ c₀, cs.head? = some c₀ → c₀.startChar = off) ∧
  (∀ cl, cs.getLast? = some cl → cl.endChar = off + len) ∧
  List.Chain' (fun a b => a.startChar < b.startChar ∧ b.startChar ≤ a.endChar) cs ∧
  ∀ c ∈ cs, off ≤ c.startChar ∧ c.startChar ≤ c.endChar ∧ c.endChar ≤ off + len ∧
    c.startChar < off + len

/-- Scenario B of the spec (claim C3): `chunk_size=20, overlap=5,
min_chunk_size=5` on thirty repetitions of `"a"`, with ample fuel. -/
def scenarioB : Except String (List ChunkR) :=
  chunk_document ⟨20, 5, 5, true⟩ 40 (List.replicate 30 'a')

/-- Concrete chunk used by the C10 witness. -/
def c10WitnessChunk : ChunkP :=
  { id := "abc123".toList, text := "the higgs boson".toList,
    metadata :=
      { source := "doc.md".toList, source_id := "d1".toList, section_ := "Intro".toList,
        chunk_index := 2, chunk_type := "theory".toList, tags := ["higgs".toList],
        has_latex := true, has_code := false, code_language := none,
        start_char := 10, end_char := 25, physics_terms := [],
        detector_mentions := ["ATLAS".toList], particle_mentions := ["higgs".toList] },
    embedding := some [0.5, 1.5], score := some 0.25 }

/-- Concrete document used by the C1 amended-claim witness: a display-math
block surrounded by plain filler, no headers, no break delimiters at all. -/
def c1WitnessContent : List Char :=
  "AAAA$$E = mc^2$$".toList ++ List.replicate 14 'B'

/-- Concrete document used by the C4 amended-claim witness: a small first
section and a second section too large for one chunk. -/
def c4WitnessDoc : List Char := "# A\nxx\n# B\n".toList ++ List.replicate 30 'b'

/-! ## Theorems -/

/-- C9: a document whose trimmed content is empty yields the empty chunk
list (the Python merely logs a warning and returns `[]`; no error is
raised for any configuration or fuel). -/
theorem c9_empty_input (cfg : Config) (fuel : Nat) (content : List Char)
    (h : pyStrip content = []) : chunk_document cfg fuel content = .ok [] := by
  simp [chunk_document, h]

/-- Witness for C9 at the whitespace-only content `" \n\t "`. -/
theorem c9_empty_input_witness :
    pyStrip " \n\t ".toList = [] ∧
      chunk_document ⟨1000, 100, 200, true⟩ 40 " \n\t ".toList = .ok [] :=
  ⟨by decide, c9_empty_input _ _ _ (by decide)⟩

/-- C8: the chunk-type classifier implements exactly the claimed priority:
latex and code give `mixed`; code only gives `code`; latex only gives
`equation` when the display plus inline match count exceeds 3 and `theory`
otherwise; then tutorial keywords, then detector keywords, else `theory`. -/
theorem c8_classification (text : List Char) (hasLatex hasCode : Bool) :
    classify_chunk_type text hasLatex hasCode = chunkTypeSpec text hasLatex hasCode := by
  cases hasLatex <;> cases hasCode <;>
    simp [classify_chunk_type, chunkTypeSpec]

/-- C10: serialising a chunk to a dictionary and parsing it back
reconstructs the chunk in all fields, for every chunk with non-empty text
(and the non-empty id every constructed chunk has). -/
theorem c10_roundtrip (c : ChunkP) (hid : c.id ≠ []) (htext : c.text ≠ []) :
    chunk_from_dict (chunk_to_dict c) = .ok c := by
  simp [chunk_from_dict, chunk_to_dict, mk_chunk_value, metadata_from_dict,
    metadata_to_dict, hid, htext]

/-- Witness for C10 at a concrete chunk carrying an embedding and a score. -/
theorem c10_roundtrip_witness :
    c10WitnessChunk.id ≠ [] ∧ c10WitnessChunk.text ≠ [] ∧
      chunk_from_dict (chunk_to_dict c10WitnessChunk) = .ok c10WitnessChunk :=
  ⟨by decide, by decide, c10_roundtrip _ (by decide) (by decide)⟩

/-- C2 is false of the code: on a document whose first window strips to
whitespace only, `_create_chunks` hands the empty candidate to `Chunk`,
whose `__post_init__` raises `ValueError("Chunk text cannot be empty")`.
Failing input: ten newlines followed by `"hello"`, with `chunk_size=10`,
`overlap=3`, `min_chunk_size=5`. -/
theorem c2_raises_on_whitespace_window :
    chunk_document ⟨10, 3, 5, true⟩ 40 (List.replicate 10 '\n' ++ "hello".toList) =
      .error "Chunk text cannot be empty" := by
  rfl

/-- C3 is false as stated: Scenario B produces two chunks, not three. -/
theorem c3_counterexample :
    (scenarioB.toOption.map List.length = some 2) ∧
      ¬ (scenarioB.toOption.map List.length = some 3) := by
  refine ⟨by rfl, by decide⟩

/-- C3 amended: on Scenario B the first step's boundary search finds no
natural break and falls back to the raw target end 20, the cursor advances
by 15, and exactly two chunks are produced, spanning `[0, 20)` and
`[15, 30)` — the second overlapping the first by exactly the overlap 5. -/
theorem c3_scenarioB_chunks :
    scenarioB = .ok
      [⟨List.replicate 20 'a', [], 0, 20, 0, false, false, none, "theory".toList⟩,
       ⟨List.replicate 15 'a', [], 15, 30, 1, false, false, none, "theory".toList⟩] := by
  rfl

/-- C1 is false as stated: with `chunk_size=12 ≥ 12` and
`overlap=5 < chunk_size`, the document `"AAAA$$E = mc^2$$BBBBBBBBBBBBBB"`
produces a second chunk covering `[11, 23)`, which cuts the display-math
block `[4, 16)` at its left edge: the overlap rewind lands the next chunk's
start strictly inside the protected block. -/
theorem c1_counterexample :
    respectsBlocksB ⟨12, 5, 1, true⟩ 40
      ("AAAA$$E = mc^2$$".toList ++ List.replicate 14 'B') = false := by
  rfl

/-- C4 is false as stated: the headerless document `" hi"` is returned by
the section splitter untrimmed, and the single emitted chunk's text is the
raw `" hi"`, not the section's trimmed text `"hi"`. -/
theorem c4_counterexample :
    chunk_document ⟨1000, 100, 200, true⟩ 40 " hi".toList =
      .ok [⟨" hi".toList, [], 0, 3, 0, false, false, none, "theory".toList⟩] ∧
    documentSections ⟨1000, 100, 200, true⟩ " hi".toList = [⟨[], " hi".toList, 0⟩] ∧
    " hi".toList ≠ pyStrip " hi".toList := by
  refine ⟨by rfl, by rfl, by decide⟩

/-- C7 is false as stated: in the document `"\nA\n# H\nB"` the untitled
leading section is recorded at `start_offset = 0`, but the first character
of its trimmed text `"A"` sits at document offset 1. -/
theorem c7_counterexample :
    (split_by_sections "\nA\n# H\nB".toList).head? = some ⟨[], ['A'], 0⟩ ∧
    occursAtB "\nA\n# H\nB".toList 0 ['A'] = false ∧
    occursAtB "\nA\n# H\nB".toList 1 ['A'] = true := by
  refine ⟨by rfl, by rfl, by rfl⟩

/-! ### List and scanner facts -/

/-- The head of a dropped list is the indexed element. -/
lemma head?_drop (l : List Char) (n : Nat) : (l.drop n).head? = l.get? n := by
  induction l generalizing n with
  | nil => simp
  | cons a t ih => cases n <;> simp [ih]

/-- `dropWhile` drops exactly the `takeWhile` prefix. -/
lemma dropWhile_eq_drop (p : Char → Bool) (l : List Char) :
    l.dropWhile p = l.drop (l.takeWhile p).length := by
  induction l with
  | nil => rfl
  | cons a t ih => by_cases h : p a <;> simp [List.dropWhile_cons, List.takeWhile_cons, h, ih]

/-- The character right after the `takeWhile` prefix fails the predicate. -/
lemma takeWhile_stop (p : Char → Bool) :
    ∀ (l : List Char) {ch}, (l.drop (l.takeWhile p).length).head? = some ch → p ch = false := by
  intro l
  induction l with
  | nil => simp
  | cons a t ih =>
    intro ch h
    by_cases hp : p a
    · rw [List.takeWhile_cons, if_pos hp] at h
      exact ih (by simpa using h)
    · rw [List.takeWhile_cons, if_neg hp] at h
      simp at h
      subst h
      simpa using hp

/-- A run is no longer than the rest of the list. -/
lemma runLen_le (p : Char → Bool) (c : List Char) (i : Nat) :
    runLen p c i ≤ c.length - i := by
  unfold runLen
  have h := (List.takeWhile_sublist (l := c.drop i) p).length_le
  rw [List.length_drop] at h
  exact h

/-- A run starting at a character satisfying the predicate is non-empty. -/
lemma runLen_pos (p : Char → Bool) (c : List Char) (i : Nat) {ch : Char}
    (hc : c.get? i = some ch) (hp : p ch = true) : 1 ≤ runLen p c i := by
  unfold runLen
  have hhd : (c.drop i).head? = some ch := by rw [head?_drop]; exact hc
  cases hd : c.drop i with
  | nil => rw [hd] at hhd; simp at hhd
  | cons a t =>
    rw [hd] at hhd
    simp at hhd
    subst hhd
    simp [List.takeWhile_cons, hp, hd]

/-- The character at the end of a maximal run fails the predicate. -/
lemma runLen_stop (p : Char → Bool) (c : List Char) (i : Nat) {ch : Char}
    (hc : c.get? (i + runLen p c i) = some ch) : p ch = false := by
  apply takeWhile_stop p (c.drop i)
  rw [List.drop_drop, head?_drop]
  exact hc

/-- Length of a Python slice. -/
lemma pySlice_length (c : List Char) (a b : Nat) :
    (pySlice c a b).length = min (b - a) (c.length - a) := by
  simp [pySlice]

/-- A non-empty slice starts strictly before both its end and the list end. -/
lemma pySlice_ne_nil {c : List Char} {a b : Nat} (h : pySlice c a b ≠ []) :
    a < b ∧ a < c.length := by
  have := pySlice_length c a b
  have hlen : 0 < (pySlice c a b).length := List.length_pos.mpr h
  omega

/-- Stripping the empty list gives the empty list. -/
lemma pyStrip_nil : pyStrip [] = [] := rfl

/-- A non-empty strip comes from a non-empty list. -/
lemma pyStrip_ne_nil {l : List Char} (h : pyStrip l ≠ []) : l ≠ [] := by
  intro hl
  exact h (by rw [hl]; rfl)

/-- Stripping never lengthens a list. -/
lemma pyStrip_length_le (l : List Char) : (pyStrip l).length ≤ l.length := by
  unfold pyStrip
  have h1 := (List.dropWhile_sublist (l := l) isPySpaceB).length_le
  have h2 := (List.dropWhile_sublist (l := (l.dropWhile isPySpaceB).reverse)
    isPySpaceB).length_le
  simp only [List.length_reverse] at *
  omega

/-- What a successful `rfind` yields: an in-range index and an occurrence. -/
lemma pyRfind_some {s pat : List Char} {k : Nat} (h : pyRfind s pat = some k) :
    k ≤ s.length ∧ (s.drop k).take pat.length = pat := by
  unfold pyRfind at h
  have hp := List.find?_some h
  have hmem := List.mem_of_find?_eq_some h
  constructor
  · have : k ∈ List.range (s.length + 1) := by simpa using hmem
    have := List.mem_range.mp this
    omega
  · simpa [occursAtB] using hp

/-- A non-trivial occurrence fits inside the string. -/
lemma occurrence_le {s pat : List Char} {k : Nat} (hpat : pat ≠ [])
    (h : (s.drop k).take pat.length = pat) : k + pat.length ≤ s.length := by
  have hlen : ((s.drop k).take pat.length).length = pat.length := by rw [h]
  rw [List.length_take, List.length_drop] at hlen
  have hp : 1 ≤ pat.length := List.length_pos.mpr hpat
  omega

/-- The searched-window part of the safe-boundary computation stays between
the window start and the section end; combined with the snap analysis this
bounds the whole boundary search. -/
lemma find_sentence_break_some {st : List Char} {ss r : Nat} :
    ∀ {ps : List (List Char)}, find_sentence_break st ss ps = some r →
      (∀ p ∈ ps, p ≠ []) → (∃ p ∈ ps, ∃ k, pyRfind st p = some k ∧ r = ss + k + p.length)
  | [], h, _ => by simp [find_sentence_break] at h
  | p :: ps, h, hne => by
    rw [find_sentence_break] at h
    split at h
    · rename_i k hk
      split at h
      · injection h with h'
        exact ⟨p, by simp, k, hk, h'.symm⟩
      · obtain ⟨q, hq, k', hk', hr⟩ := find_sentence_break_some h (fun x hx => hne x (by simp [hx]))
        exact ⟨q, by simp [hq], k', hk', hr⟩
    · obtain ⟨q, hq, k', hk', hr⟩ := find_sentence_break_some h (fun x hx => hne x (by simp [hx]))
      exact ⟨q, by simp [hq], k', hk', hr⟩

/-- Bounds for the target snap: it never retreats and never escapes the
section text. -/
lemma snapTargetEnd_bounds (text : List Char) (targetEnd : Nat)
    (blocks : List ProtectedBlock) (offset : Nat) (h2 : targetEnd ≤ text.length) :
    targetEnd ≤ snapTargetEnd text targetEnd blocks offset ∧
      snapTargetEnd text targetEnd blocks offset ≤ text.length := by
  unfold snapTargetEnd
  simp only []
  split
  · rename_i b hf
    have hp := List.find?_some hf
    simp only [Bool.and_eq_true, decide_eq_true_eq] at hp
    exact ⟨by omega, by omega⟩
  · exact ⟨Nat.le_refl _, h2⟩

/-- Bounds for a successful backward break: it lies inside the window. -/
lemma backwardBreak_some_bounds {st : List Char} {ss r : Nat}
    (h : backwardBreak st ss = some r) : ss < r ∧ r ≤ ss + st.length := by
  unfold backwardBreak at h
  simp only [] at h
  split at h
  · rename_i r' hr'
    -- paragraph arm produced some r'
    injection h with h'
    subst h'
    split at hr'
    · rename_i pb hpb
      split at hr'
      · injection hr' with hr'
        subst hr'
        obtain ⟨-, hocc⟩ := pyRfind_some hpb
        have := occurrence_le (by simp) hocc
        simp only [List.length_cons, List.length_nil] at this
        omega
      · simp at hr'
    · simp at hr'
  · split at h
    · rename_i r' hr'
      injection h with h'
      subst h'
      obtain ⟨p, hp, k, hk, hr₂⟩ := find_sentence_break_some hr' (by decide)
      obtain ⟨-, hocc⟩ := pyRfind_some hk
      have hple : p ≠ [] := by
        have : ∀ q ∈ sentencePuncts, q ≠ [] := by decide
        exact this p hp
      have := occurrence_le hple hocc
      have hpl : 1 ≤ p.length := List.length_pos.mpr hple
      omega
    · split at h
      · rename_i lb hlb
        split at h
        · injection h with h'
          subst h'
          obtain ⟨-, hocc⟩ := pyRfind_some hlb
          have := occurrence_le (by simp) hocc
          simp only [List.length_cons, List.length_nil] at this
          omega
        · simp at h
      · simp at h

/-- Boundary-search bounds: the resolved end never retreats before the
window start and never passes the section end. -/
lemma find_safe_boundary_bounds (text : List Char) (start tEnd : Nat)
    (blocks : List ProtectedBlock) (offset : Nat)
    (h1 : start ≤ tEnd) (h2 : tEnd ≤ text.length) :
    start ≤ find_safe_boundary text start tEnd blocks offset ∧
      find_safe_boundary text start tEnd blocks offset ≤ text.length := by
  unfold find_safe_boundary
  simp only []
  obtain ⟨hs1, hs2⟩ := snapTargetEnd_bounds text tEnd blocks offset h2
  set tE := snapTargetEnd text tEnd blocks offset with htE
  set ss := max start (tE - 200) with hss
  have hss1 : start ≤ ss := le_max_left _ _
  have hss2 : ss ≤ tE := by omega
  have hstlen : (pySlice text ss tE).length = tE - ss := by
    rw [pySlice_length]; omega
  split
  · rename_i r hr
    obtain ⟨hr1, hr2⟩ := backwardBreak_some_bounds hr
    omega
  · omega

/-- The iteration end lies between the cursor and the section end. -/
lemma stepEndPos_bounds (cfg : Config) (text : List Char) (blocks : List ProtectedBlock)
    (offset pos : Nat) (hp : pos < text.length) :
    pos ≤ stepEndPos cfg text blocks offset pos ∧
      stepEndPos cfg text blocks offset pos ≤ text.length := by
  unfold stepEndPos
  simp only []
  split
  · exact find_safe_boundary_bounds text pos _ blocks offset
      (Nat.le_min.mpr ⟨Nat.le_add_right _ _, Nat.le_of_lt hp⟩) (Nat.min_le_right _ _)
  · exact ⟨Nat.le_min.mpr ⟨Nat.le_add_right _ _, Nat.le_of_lt hp⟩, Nat.min_le_right _ _⟩

/-- The three possible outcomes of the cursor update. -/
lemma stepNextPos_cases (cfg : Config) (text : List Char) (endPos lastStartRel : Nat) :
    stepNextPos cfg text endPos lastStartRel = endPos ∨
    (stepNextPos cfg text endPos lastStartRel = endPos - cfg.overlap ∧
      endPos < text.length ∧ lastStartRel < endPos - cfg.overlap) ∨
    (stepNextPos cfg text endPos lastStartRel = text.length ∧
      ¬ endPos < text.length ∧ lastStartRel < text.length) := by
  unfold stepNextPos
  simp only []
  split <;> split
  · left; rfl
  · right; left; refine ⟨rfl, by assumption, by omega⟩
  · left; rfl
  · right; right; refine ⟨rfl, by assumption, by omega⟩

/-- Fields of a successfully constructed chunk. -/
lemma make_chunk_ok {t st : List Char} {s e i : Nat} {ch : ChunkR}
    (h : make_chunk t st s e i = Except.ok ch) :
    ch.text = t ∧ ch.sectionTitle = st ∧ ch.startChar = s ∧ ch.endChar = e ∧
      ch.chunkIndex = i ∧ t ≠ [] := by
  by_cases ht : t = []
  · simp [make_chunk, ht] at h
  · simp [make_chunk, ht] at h
    cases h
    exact ⟨rfl, rfl, rfl, rfl, rfl, ht⟩

/-! ### Span ordering and coverage (claim C5) -/

/-- The loop invariant: given a well-formed accumulator, a successful run of
the splitting loop covers the whole section.  The accumulator is in reverse
order; its head is the most recent chunk and its last element the first. -/
lemma create_chunks_loop_covered (cfg : Config) (text sectionTitle : List Char)
    (offset : Nat) (blocks : List ProtectedBlock) :
    ∀ fuel pos idx acc out,
      create_chunks_loop cfg text sectionTitle offset blocks fuel pos idx acc = .ok out →
      (acc = [] → pos = 0) →
      (∀ hd tl, acc = hd :: tl → hd.startChar < offset + pos ∧ offset + pos ≤ hd.endChar) →
      List.Chain' (fun a b => b.startChar < a.startChar ∧ a.startChar ≤ b.endChar) acc →
      (∀ c ∈ acc, offset ≤ c.startChar ∧ c.startChar ≤ c.endChar ∧
        c.endChar ≤ offset + text.length ∧ c.startChar < offset + text.length) →
      (∀ cl, acc.getLast? = some cl → cl.startChar = offset) →
      (text.length ≤ pos → ∃ hd tl, acc = hd :: tl ∧ hd.endChar = offset + text.length) →
      sectionCovered offset text.length out := by
  intro fuel
  induction fuel with
  | zero => intro pos idx acc out h _ _ _ _ _ _; simp [create_chunks_loop] at h
  | succ fuel ih =>
    intro pos idx acc out h hP1 hP2 hP3 hP4 hP5 hP6
    rw [create_chunks_loop] at h
    split at h
    · rename_i hp
      obtain ⟨hE1, hE2⟩ := stepEndPos_bounds cfg text blocks offset pos hp
      split at h
      · -- acc = []
        have hpos0 : pos = 0 := hP1 rfl
        simp only [] at h
        split at h
        · split at h
          · exact absurd h (by simp)
          · rename_i ch heq
            obtain ⟨hct, -, hcs, hce, -, hne⟩ := make_chunk_ok heq
            have hslice := pyStrip_ne_nil hne
            have hlt : pos < stepEndPos cfg text blocks offset pos := (pySlice_ne_nil hslice).1
            have hrel : ch.startChar - offset = pos := by omega
            rw [hrel] at h
            rcases stepNextPos_cases cfg text (stepEndPos cfg text blocks offset pos) pos
              with hN | ⟨hN, hNl, hNr⟩ | ⟨hN, hNl, hNr⟩ <;>
            · refine ih _ _ _ _ h ?_ ?_ ?_ ?_ ?_ ?_
              · intro hc; cases hc
              · intro hd tl hhd
                injection hhd with h1 h2
                subst h1
                rw [hN]
                omega
              · simp
              · intro c hc
                simp at hc
                subst hc
                omega
              · intro cl hcl
                simp at hcl
                subst hcl
                omega
              · intro hle
                rw [hN] at hle
                exact ⟨ch, [], rfl, by omega⟩
        · exact absurd h (by simp)
      · -- acc = last :: rest
        rename_i last rest
        obtain ⟨hlast1, hlast2⟩ := hP2 last rest rfl
        have hP4last := hP4 last (by simp)
        simp only [] at h
        split at h
        · -- emit
          split at h
          · exact absurd h (by simp)
          · rename_i ch heq
            obtain ⟨hct, -, hcs, hce, -, hne⟩ := make_chunk_ok heq
            have hslice := pyStrip_ne_nil hne
            have hlt : pos < stepEndPos cfg text blocks offset pos := (pySlice_ne_nil hslice).1
            have hrel : ch.startChar - offset = pos := by omega
            rw [hrel] at h
            rcases stepNextPos_cases cfg text (stepEndPos cfg text blocks offset pos) pos
              with hN | ⟨hN, hNl, hNr⟩ | ⟨hN, hNl, hNr⟩ <;>
            · refine ih _ _ _ _ h ?_ ?_ ?_ ?_ ?_ ?_
              · intro hc; cases hc
              · intro hd tl hhd
                injection hhd with h1 h2
                subst h1
                rw [hN]
                omega
              · rw [List.chain'_cons]
                exact ⟨⟨by omega, by omega⟩, hP3⟩
              · intro c hc
                rcases List.mem_cons.mp hc with hc | hc
                · subst hc; omega
                · exact hP4 c (by simp [hc])
              · intro cl hcl
                rw [List.getLast?_cons_cons] at hcl
                exact hP5 cl hcl
              · intro hle
                rw [hN] at hle
                exact ⟨ch, last :: rest, rfl, by omega⟩
        · -- absorb
          split at h
          · exact absurd h (by simp)
          · rename_i ch heq
            obtain ⟨hct, -, hcs, hce, -, -⟩ := make_chunk_ok heq
            have hoff : offset ≤ last.startChar := hP4last.1
            have hrel : ch.startChar - offset = last.startChar - offset := by rw [hcs]
            rw [hrel] at h
            rcases stepNextPos_cases cfg text (stepEndPos cfg text blocks offset pos)
              (last.startChar - offset)
              with hN | ⟨hN, hNl, hNr⟩ | ⟨hN, hNl, hNr⟩ <;>
            · refine ih _ _ _ _ h ?_ ?_ ?_ ?_ ?_ ?_
              · intro hc; cases hc
              · intro hd tl hhd
                injection hhd with h1 h2
                subst h1
                rw [hN]
                omega
              · cases rest with
                | nil => simp
                | cons h2 t2 =>
                  rw [List.chain'_cons]
                  have := (List.chain'_cons.mp hP3).1
                  refine ⟨⟨by omega, by omega⟩, (List.chain'_cons.mp hP3).2⟩
              · intro c hc
                rcases List.mem_cons.mp hc with hc | hc
                · subst hc; omega
                · exact hP4 c (by simp [hc])
              · intro cl hcl
                cases rest with
                | nil =>
                  simp at hcl
                  subst hcl
                  have := hP5 last (by simp)
                  omega
                | cons h2 t2 =>
                  rw [List.getLast?_cons_cons] at hcl
                  exact hP5 cl (by rw [List.getLast?_cons_cons]; exact hcl)
              · intro hle
                rw [hN] at hle
                exact ⟨ch, rest, rfl, by omega⟩
    · -- loop exit
      rename_i hp
      have hlen_le : text.length ≤ pos := Nat.le_of_not_lt hp
      obtain ⟨hd, tl, hacc, hend⟩ := hP6 hlen_le
      injection h with h'
      subst h'
      subst hacc
      refine ⟨by simp, ?_, ?_, ?_, ?_⟩
      · intro c₀ hc₀
        rw [List.head?_reverse] at hc₀
        exact hP5 c₀ hc₀
      · intro cl hcl
        rw [List.getLast?_reverse] at hcl
        simp at hcl
        subst hcl
        exact hend
      · exact List.chain'_reverse.mpr hP3
      · intro c hc
        rw [List.mem_reverse] at hc
        exact hP4 c hc

/-- `_create_chunks` covers its section whenever it succeeds. -/
lemma create_chunks_covered {cfg : Config} {text sectionTitle : List Char} {offset : Nat}
    {blocks : List ProtectedBlock} {startIndex fuel : Nat} {out : List ChunkR}
    (h : create_chunks cfg text sectionTitle offset blocks startIndex fuel = .ok out) :
    sectionCovered offset text.length out := by
  rw [create_chunks] at h
  split at h
  · split at h
    · exact absurd h (by simp)
    · rename_i ch heq
      obtain ⟨-, -, hcs, hce, -, hne⟩ := make_chunk_ok heq
      injection h with h'
      subst h'
      have hlen : 1 ≤ text.length := List.length_pos.mpr hne
      refine ⟨by simp, ?_, ?_, by simp, ?_⟩
      · intro c₀ hc₀
        simp at hc₀
        subst hc₀
        exact hcs
      · intro cl hcl
        simp at hcl
        subst hcl
        exact hce
      · intro c hc
        simp at hc
        subst hc
        omega
  · rename_i hgt
    exact create_chunks_loop_covered cfg text sectionTitle offset blocks fuel 0 startIndex []
      out h (fun _ => rfl) (fun _ _ h => by cases h) (by simp) (by simp) (by simp)
      (fun hle => absurd hle (by omega))

/-- The per-section fold decomposes its output into per-section covered
chunk lists. -/
lemma chunk_sections_covered {cfg : Config} {blocks : List ProtectedBlock} {fuel : Nat} :
    ∀ {secs : List Sec} {idx : Nat} {out : List ChunkR},
      chunk_sections cfg blocks fuel secs idx = .ok out →
      ∃ css, out = css.flatten ∧
        List.Forall₂ (fun sec cs => sectionCovered sec.off sec.text.length cs) secs css
  | [], idx, out, h => by
    injection h with h'
    subst h'
    exact ⟨[], rfl, List.Forall₂.nil⟩
  | s :: rest, idx, out, h => by
    rw [chunk_sections] at h
    split at h
    · exact absurd h (by simp)
    · rename_i cs heq
      split at h
      · exact absurd h (by simp)
      · rename_i more hmore
        injection h with h'
        subst h'
        obtain ⟨css, rfl, hf⟩ := chunk_sections_covered hmore
        exact ⟨cs :: css, rfl, List.Forall₂.cons (create_chunks_covered heq) hf⟩

/-! ### Section splitter facts -/

/-- Every scanner match is a real match of the pattern at or after the
starting position (the matcher must consume at least one character). -/
lemma scanAux_mem {α : Type} {len : Nat} {f : Nat → Option (Nat × α)}
    (hf : ∀ j e a, f j = some (e, a) → j < e) :
    ∀ {fuel i : Nat} {m : Nat × Nat × α}, m ∈ scanAux len f fuel i →
      f m.1 = some (m.2.1, m.2.2) ∧ i ≤ m.1 := by
  intro fuel
  induction fuel with
  | zero => intro i m h; simp [scanAux] at h
  | succ fuel ih =>
    intro i m h
    rw [scanAux] at h
    split at h
    · split at h
      · rename_i e a hfi
        rcases List.mem_cons.mp h with hm | hm
        · subst hm
          exact ⟨hfi, le_refl _⟩
        · obtain ⟨h1, h2⟩ := ih hm
          exact ⟨h1, le_trans (le_of_lt (hf i e a hfi)) h2⟩
      · obtain ⟨h1, h2⟩ := ih h
        exact ⟨h1, by omega⟩
    · simp at h

/-- Scanner matches are ordered: each match ends before the next begins. -/
lemma scanAux_chain {α : Type} {len : Nat} {f : Nat → Option (Nat × α)}
    (hf : ∀ j e a, f j = some (e, a) → j < e) :
    ∀ {fuel i : Nat}, List.Chain' (fun m m' => m.2.1 ≤ m'.1) (scanAux len f fuel i) := by
  intro fuel
  induction fuel with
  | zero => intro i; simp [scanAux]
  | succ fuel ih =>
    intro i
    rw [scanAux]
    split
    · split
      · rename_i e a hfi
        rw [List.chain'_cons']
        refine ⟨?_, ih⟩
        intro y hy
        have hym : y ∈ scanAux len f fuel e := List.mem_of_mem_head? hy
        exact (scanAux_mem hf hym).2
      · exact ih
    · simp

/-- A positive run exposes its first character. -/
lemma runLen_pos_elim {p : Char → Bool} {c : List Char} {i : Nat} (h : 1 ≤ runLen p c i) :
    ∃ ch, c.get? i = some ch ∧ p ch = true := by
  unfold runLen at h
  cases hd : c.drop i with
  | nil => rw [hd] at h; simp at h
  | cons a t =>
    rw [hd, List.takeWhile_cons] at h
    by_cases hp : p a
    · exact ⟨a, by rw [← head?_drop, hd]; rfl, hp⟩
    · rw [if_neg hp] at h
      simp at h

/-- What a successful end-of-string backtrack yields. -/
lemma lastNonNl_some {c : List Char} {lo hi p : Nat} (h : lastNonNl c lo hi = some p) :
    lo ≤ p ∧ p < hi := by
  unfold lastNonNl at h
  have hp := List.find?_some h
  have hmem := List.mem_of_find?_eq_some h
  simp only [Bool.and_eq_true, decide_eq_true_eq] at hp
  constructor
  · exact hp.1
  · have : p ∈ List.range hi := by simpa using hmem
    exact List.mem_range.mp this

/-- A header match starts at a hash character, is non-empty, and ends inside
the document. -/
lemma headerMatchAt_some {c : List Char} {i e : Nat} {t : List Char}
    (h : headerMatchAt c i = some (e, t)) :
    c.get? i = some '#' ∧ i < e ∧ e ≤ c.length := by
  unfold headerMatchAt at h
  split at h
  · simp only [] at h
    split at h
    · rename_i hhr
      obtain ⟨ch0, hch0, hp0⟩ := runLen_pos_elim hhr.1
      have hhash : c.get? i = some '#' := by
        have : ch0 = '#' := by
          have := hp0
          simp at this
          exact this
        rw [← this]
        exact hch0
      split at h
      · rename_i hw
        split at h
        · rename_i hm
          -- main branch: the title run is non-empty
          injection h with h'
          have hget : ∃ chm, c.get? (i + runLen (fun ch => ch == '#') c i +
              runLen isPySpaceB c (i + runLen (fun ch => ch == '#') c i)) = some chm := by
            rcases hg : c.get? (i + runLen (fun ch => ch == '#') c i +
              runLen isPySpaceB c (i + runLen (fun ch => ch == '#') c i)) with _ | chm
            · rw [List.get?_eq_none] at hg
              omega
            · exact ⟨chm, rfl⟩
          obtain ⟨chm, hchm⟩ := hget
          have hws : isPySpaceB chm = false := runLen_stop isPySpaceB c _ hchm
          have hnl : (chm != '\n') = true := by
            by_cases hc : chm = '\n'
            · subst hc; simp [isPySpaceB] at hws
            · simp [hc]
          have hpos := runLen_pos (fun ch => ch != '\n') c _ hchm hnl
          have hle := runLen_le (fun ch => ch != '\n') c
            (i + runLen (fun ch => ch == '#') c i +
              runLen isPySpaceB c (i + runLen (fun ch => ch == '#') c i))
          injection h' with he ht
          exact ⟨hhash, by omega, by omega⟩
        · rename_i hm
          split at h
          · rename_i p hlnn
            injection h with h'
            injection h' with he ht
            obtain ⟨hlo, hhi⟩ := lastNonNl_some hlnn
            have hwle := runLen_le isPySpaceB c (i + runLen (fun ch => ch == '#') c i)
            exact ⟨hhash, by omega, by omega⟩
          · exact absurd h (by simp)
      · exact absurd h (by simp)
    · exact absurd h (by simp)
  · exact absurd h (by simp)

/-- Stripping a list with a non-whitespace head is non-trivial. -/
lemma pyStrip_cons_ne_nil {a : Char} {l : List Char} (ha : isPySpaceB a = false) :
    pyStrip (a :: l) ≠ [] := by
  unfold pyStrip
  rw [List.dropWhile_cons, if_neg (by simp [ha])]
  intro hcon
  rw [List.reverse_eq_nil_iff, List.dropWhile_eq_nil_iff] at hcon
  exact absurd (hcon a (by simp)) (by simp [ha])

/-- A list with a known element at position `s` splits there. -/
lemma drop_eq_cons_of_get? {c : List Char} {s : Nat} {ch : Char}
    (h : c.get? s = some ch) : c.drop s = ch :: c.drop (s + 1) := by
  induction c generalizing s with
  | nil => simp at h
  | cons a t ih =>
    cases s with
    | zero =>
      simp at h
      subst h
      simp
    | succ n =>
      simp only [List.get?_cons_succ] at h
      simpa using ih h

/-- A slice beginning at a hash character survives stripping. -/
lemma strip_slice_hash_ne_nil {c : List Char} {s e : Nat} (hsh : c.get? s = some '#')
    (hse : s < e) : pyStrip (pySlice c s e) ≠ [] := by
  obtain ⟨k, hk⟩ : ∃ k, e - s = k + 1 := ⟨e - s - 1, by omega⟩
  have hslice : pySlice c s e = '#' :: (c.drop (s + 1)).take k := by
    unfold pySlice
    rw [drop_eq_cons_of_get? hsh, hk, List.take_succ_cons]
  rw [hslice]
  exact pyStrip_cons_ne_nil (by decide)

/-- The right-strip of a list is one of its prefixes. -/
lemma rstrip_eq_take (X : List Char) :
    ∃ k, (X.reverse.dropWhile isPySpaceB).reverse = X.take k := by
  refine ⟨X.length - (X.reverse.takeWhile isPySpaceB).length, ?_⟩
  rw [dropWhile_eq_drop, List.reverse_drop]
  simp

/-- Taking a list's own truncation length is the truncation itself. -/
lemma take_min_length (l : List Char) (k : Nat) : l.take (min k l.length) = l.take k := by
  rcases Nat.le_total k l.length with h | h
  · rw [Nat.min_eq_left h]
  · rw [Nat.min_eq_right h, List.take_of_length_le h, List.take_of_length_le (by omega)]

/-- Any explicit take-of-drop decomposition witnesses an occurrence. -/
lemma occursAtB_of_take_drop {c text : List Char} {a : Nat}
    (h : ∃ k, text = (c.drop a).take k) : occursAtB c a text = true := by
  obtain ⟨k, hk⟩ := h
  unfold occursAtB
  rw [decide_eq_true_eq, hk, List.length_take, List.length_drop]
  rw [show min k (c.length - a) = min k (c.drop a).length by rw [List.length_drop]]
  exact take_min_length _ _

/-- The stripped slice occurs in the document at the slice start plus the
number of leading whitespace characters stripped. -/
lemma pyStrip_slice_occursAt (c : List Char) (s e : Nat) :
    occursAtB c (s + ((pySlice c s e).takeWhile isPySpaceB).length)
      (pyStrip (pySlice c s e)) = true := by
  apply occursAtB_of_take_drop
  set w := ((pySlice c s e).takeWhile isPySpaceB).length with hw
  obtain ⟨k, hk⟩ := rstrip_eq_take ((pySlice c s e).dropWhile isPySpaceB)
  refine ⟨min k (e - s - w), ?_⟩
  show pyStrip (pySlice c s e) = _
  unfold pyStrip
  rw [hk, dropWhile_eq_drop, ← hw]
  unfold pySlice
  rw [List.drop_take, List.drop_drop, List.take_take]

/-- Every header match of a document is a real match, and they are ordered. -/
lemma headerMatches_facts (c : List Char) :
    (∀ m ∈ headerMatches c, c.get? m.1 = some '#' ∧ m.1 < m.2.1 ∧ m.2.1 ≤ c.length) ∧
    List.Chain' (fun m m' => m.2.1 ≤ m'.1) (headerMatches c) := by
  have hf : ∀ j e a, headerMatchAt c j = some (e, a) → j < e :=
    fun j e a h => (headerMatchAt_some h).2.1
  constructor
  · intro m hm
    obtain ⟨hma, -⟩ := scanAux_mem hf hm
    exact headerMatchAt_some hma
  · exact scanAux_chain hf

/-- Sections cut at header matches are ordered, each ending before the next
header, with the first section sitting at the first header. -/
lemma buildSecs_facts (c : List Char) :
    ∀ hs : List (Nat × Nat × List Char),
      (∀ m ∈ hs, c.get? m.1 = some '#' ∧ m.1 < m.2.1 ∧ m.2.1 ≤ c.length) →
      List.Chain' (fun m m' => m.2.1 ≤ m'.1) hs →
      List.Chain' (fun s s' => s.off + s.text.length ≤ s'.off) (buildSecs c hs) ∧
      (∀ hd, (buildSecs c hs).head? = some hd → ∃ m, hs.head? = some m ∧ hd.off = m.1) ∧
      ∀ sec ∈ buildSecs c hs, sec.text ≠ [] ∧ sec.text.length ≤ c.length ∧
        occursAtB c sec.off sec.text = true := by
  intro hs
  induction hs with
  | nil => intro _ _; exact ⟨by simp [buildSecs], by simp [buildSecs], by simp [buildSecs]⟩
  | cons m rest ih =>
    obtain ⟨s, e, title⟩ := m
    intro hsound hchain
    have hm1 : c.get? s = some '#' := by simpa using (hsound (s, e, title) (by simp)).1
    have hm2 : s < e := by simpa using (hsound (s, e, title) (by simp)).2.1
    have hm3 : e ≤ c.length := by simpa using (hsound (s, e, title) (by simp)).2.2
    have hlt : s < secEndPos c rest := by
      cases rest with
      | nil => simp [secEndPos]; omega
      | cons m' rest' =>
        obtain ⟨s', e', t'⟩ := m'
        have hlink : e ≤ s' := by simpa [secEndPos] using (List.chain'_cons.mp hchain).1
        simp [secEndPos]
        omega
    have hne : pyStrip (pySlice c s (secEndPos c rest)) ≠ [] :=
      strip_slice_hash_ne_nil hm1 hlt
    have hunfold : buildSecs c ((s, e, title) :: rest) =
        ⟨pyStrip title, pyStrip (pySlice c s (secEndPos c rest)), s⟩ :: buildSecs c rest := by
      simp only [buildSecs, if_neg hne, List.singleton_append]
    obtain ⟨ihchain, ihhead, ihmem⟩ := ih (fun x hx => hsound x (by simp [hx])) hchain.tail
    have hstlen : (pyStrip (pySlice c s (secEndPos c rest))).length ≤ secEndPos c rest - s := by
      have h1 := pyStrip_length_le (pySlice c s (secEndPos c rest))
      have h2 := pySlice_length c s (secEndPos c rest)
      omega
    rw [hunfold]
    refine ⟨?_, ?_, ?_⟩
    · rw [List.chain'_cons']
      refine ⟨?_, ihchain⟩
      intro y hy
      obtain ⟨m₀, hm₀, hoff⟩ := ihhead y hy
      have hm₀mem : m₀ ∈ rest := List.mem_of_mem_head? hm₀
      have hEP : secEndPos c rest ≤ m₀.1 := by
        cases rest with
        | nil => simp at hm₀
        | cons mm rr =>
          obtain ⟨s', e', t'⟩ := mm
          simp at hm₀
          subst hm₀
          simp [secEndPos]
      dsimp only
      rw [hoff]
      omega
    · intro hd hhd
      simp only [List.head?_cons, Option.some.injEq] at hhd
      exact ⟨(s, e, title), rfl, by rw [← hhd]⟩
    · intro sec hsec
      rcases List.mem_cons.mp hsec with hsec | hsec
      · subst hsec
        refine ⟨hne, ?_, ?_⟩
        · have h1 := pyStrip_length_le (pySlice c s (secEndPos c rest))
          have h2 := pySlice_length c s (secEndPos c rest)
          dsimp only
          omega
        · -- the slice starts at a hash, so no leading whitespace is stripped
          have hw : ((pySlice c s (secEndPos c rest)).takeWhile isPySpaceB).length = 0 := by
            obtain ⟨k, hk⟩ : ∃ k, secEndPos c rest - s = k + 1 :=
              ⟨secEndPos c rest - s - 1, by omega⟩
            have hslice : pySlice c s (secEndPos c rest) =
                '#' :: (c.drop (s + 1)).take k := by
              unfold pySlice
              rw [drop_eq_cons_of_get? hm1, hk, List.take_succ_cons]
            rw [hslice, List.takeWhile_cons, if_neg (by decide)]
            rfl
          have := pyStrip_slice_occursAt c s (secEndPos c rest)
          rw [hw] at this
          simpa using this
      · exact ihmem sec hsec

/-- The sections of a document are ordered: each section's span ends at or
before the next section's offset. -/
lemma split_by_sections_chain (c : List Char) :
    List.Chain' (fun s s' => s.off + s.text.length ≤ s'.off) (split_by_sections c) := by
  obtain ⟨hsound, hchain⟩ := headerMatches_facts c
  unfold split_by_sections
  split
  · simp
  · rename_i rest0 s0 f0 snd0 tail0 heq
    simp only []
    obtain ⟨hbchain, hbhead, -⟩ := buildSecs_facts c (headerMatches c) hsound hchain
    split
    · split
      · simpa using hbchain
      · rename_i h0 hpt
        rw [List.singleton_append, List.chain'_cons']
        refine ⟨?_, hbchain⟩
        intro y hy
        obtain ⟨m, hm, hoff⟩ := hbhead y hy
        rw [heq] at hm
        simp only [List.head?_cons, Option.some.injEq] at hm
        have hyoff : y.off = s0 := by rw [hoff, ← hm]
        have h1 := pyStrip_length_le (c.take s0)
        have h2 : (c.take s0).length ≤ s0 := by
          rw [List.length_take]
          omega
        dsimp only
        rw [hyoff]
        omega
    · simpa using hbchain

/-- Stitching: per-section covered chunk lists over ordered sections give a
document-wide ordered chunk sequence. -/
lemma joined_chain :
    ∀ {secs : List Sec} {css : List (List ChunkR)},
      List.Forall₂ (fun sec cs => sectionCovered sec.off sec.text.length cs) secs css →
      List.Chain' (fun s s' => s.off + s.text.length ≤ s'.off) secs →
      List.Chain' (fun a b => a.startChar ≤ b.startChar) css.flatten := by
  intro secs css hf
  induction hf with
  | nil => intro _; simp
  | @cons sec cs secs' css' hsc hf ih =>
    intro hchain
    have hchain' := (List.chain'_cons'.mp hchain).2
    show List.Chain' _ (cs ++ css'.flatten)
    rw [List.chain'_append]
    refine ⟨List.Chain'.imp (fun a b hab => le_of_lt hab.1) hsc.2.2.2.1, ih hchain', ?_⟩
    intro x hx y hy
    have hxmem : x ∈ cs := List.mem_of_mem_getLast? hx
    have hxlt : x.startChar < sec.off + sec.text.length := (hsc.2.2.2.2 x hxmem).2.2.2
    cases hf with
    | nil => simp at hy
    | @cons sec₂ cs₂ secs'' css'' hsc₂ hf₂ =>
      have hne₂ : cs₂ ≠ [] := hsc₂.1
      have hy' : cs₂.head? = some y := by
        rw [show (cs₂ :: css'').flatten = cs₂ ++ css''.flatten from rfl,
          List.head?_append] at hy
        cases hh : cs₂.head? with
        | none => exact absurd (List.head?_eq_none_iff.mp hh) hne₂
        | some z =>
          rw [hh] at hy
          simp at hy
          simp [hh, hy]
      have hystart : y.startChar = sec₂.off := hsc₂.2.1 y hy'
      have hsecle : sec.off + sec.text.length ≤ sec₂.off := (List.chain'_cons.mp hchain).1
      omega

/-- C5: across a successfully chunked document, `start_char` is
non-decreasing in emission order; and the chunk list decomposes into
per-section runs, each starting at its section's offset, ending at its
section's end, with consecutive spans overlapping or abutting and all spans
inside the section. -/
theorem c5_span_ordering_and_coverage (cfg : Config) (fuel : Nat) (content : List Char)
    (chunks : List ChunkR) (h : chunk_document cfg fuel content = .ok chunks) :
    List.Chain' (fun a b => a.startChar ≤ b.startChar) chunks ∧
    ∃ css, chunks = css.flatten ∧
      List.Forall₂ (fun sec cs => sectionCovered sec.off sec.text.length cs)
        (documentSections cfg content) css := by
  rw [chunk_document] at h
  split at h
  · rename_i hblank
    injection h with h'
    subst h'
    refine ⟨by simp, [], rfl, ?_⟩
    unfold documentSections
    rw [if_pos hblank]
    exact List.Forall₂.nil
  · rename_i hblank
    obtain ⟨css, rfl, hfa⟩ := chunk_sections_covered h
    have hwf : List.Chain' (fun s s' => s.off + s.text.length ≤ s'.off)
        (sectionsOf cfg content) := by
      unfold sectionsOf
      split
      · exact split_by_sections_chain content
      · simp
    have hds : documentSections cfg content = sectionsOf cfg content := by
      unfold documentSections
      rw [if_neg hblank]
    exact ⟨joined_chain hfa hwf, css, rfl, hds ▸ hfa⟩

/-- Witness for C5 on a two-section document. -/
theorem c5_span_ordering_and_coverage_witness :
    chunk_document ⟨1000, 100, 200, true⟩ 40 "# A\nxx\n# B\nyy".toList =
      .ok [⟨"# A\nxx".toList, ['A'], 0, 6, 0, false, false, none, "theory".toList⟩,
           ⟨"# B\nyy".toList, ['B'], 7, 13, 1, false, false, none, "theory".toList⟩] ∧
    (List.Chain' (fun a b => a.startChar ≤ b.startChar)
      ([⟨"# A\nxx".toList, ['A'], 0, 6, 0, false, false, none, "theory".toList⟩,
        ⟨"# B\nyy".toList, ['B'], 7, 13, 1, false, false, none,
          "theory".toList⟩] : List ChunkR) ∧
     ∃ css, ([⟨"# A\nxx".toList, ['A'], 0, 6, 0, false, false, none, "theory".toList⟩,
              ⟨"# B\nyy".toList, ['B'], 7, 13, 1, false, false, none,
                "theory".toList⟩] : List ChunkR) = css.flatten ∧
       List.Forall₂ (fun sec cs => sectionCovered sec.off sec.text.length cs)
         (documentSections ⟨1000, 100, 200, true⟩ "# A\nxx\n# B\nyy".toList) css) :=
  ⟨by rfl, c5_span_ordering_and_coverage ⟨1000, 100, 200, true⟩ 40
    "# A\nxx\n# B\nyy".toList _ (by rfl)⟩

/-! ### Section offsets (claim C7, amended) -/

/-- A nonblank strip leaves a nonempty left-trimmed list. -/
lemma dropWhile_ne_nil_of_pyStrip_ne_nil {l : List Char} (h : pyStrip l ≠ []) :
    l.dropWhile isPySpaceB ≠ [] := by
  intro hd
  apply h
  unfold pyStrip
  rw [hd]
  rfl

/-- When a prefix of the document still contains non-whitespace, its leading
whitespace run equals the document's leading whitespace run. -/
lemma takeWhile_take_of_strip_ne_nil {c : List Char} {n : Nat}
    (h : pyStrip (c.take n) ≠ []) :
    ((c.take n).takeWhile isPySpaceB).length = (c.takeWhile isPySpaceB).length := by
  have hd := dropWhile_ne_nil_of_pyStrip_ne_nil h
  have hdlen : 0 < ((c.take n).dropWhile isPySpaceB).length := List.length_pos.mpr hd
  have hsplit := congrArg List.length (List.takeWhile_append_dropWhile isPySpaceB (c.take n))
  rw [List.length_append, List.length_take] at hsplit
  have hcomm := congrArg List.length (List.take_takeWhile (l := c) isPySpaceB n)
  rw [List.length_take] at hcomm
  have hR : (c.takeWhile isPySpaceB).length ≤ c.length :=
    (List.takeWhile_sublist isPySpaceB).length_le
  omega

/-- C7 amended: every section produced from a header, and the whole-document
section of a headerless document, occurs in the document exactly at its
recorded `start_offset`; the only exception is the untitled leading section
cut from before the first header, whose recorded offset is always 0 while
its stripped text occurs exactly at the document's leading-whitespace
count — so the recorded offset precedes the text's first character whenever
the document starts with whitespace. -/
theorem c7_section_offsets_amended (content : List Char) :
    ∀ sec ∈ split_by_sections content,
      occursAtB content sec.off sec.text = true ∨
      (sec.title = [] ∧ sec.off = 0 ∧
        occursAtB content ((content.takeWhile isPySpaceB).length) sec.text = true) := by
  obtain ⟨hsound, hchain⟩ := headerMatches_facts content
  obtain ⟨-, -, hbmem⟩ := buildSecs_facts content (headerMatches content) hsound hchain
  unfold split_by_sections
  split
  · intro sec hsec
    simp at hsec
    subst hsec
    left
    exact occursAtB_of_take_drop ⟨content.length, by simp⟩
  · rename_i rest0 s0 f0 snd0 tail0 heq
    simp only []
    intro sec hsec
    rw [List.mem_append] at hsec
    rcases hsec with hpre | hbs
    · split at hpre
      · split at hpre
        · simp at hpre
        · rename_i hpt
          simp at hpre
          subst hpre
          right
          refine ⟨rfl, rfl, ?_⟩
          have hocc := pyStrip_slice_occursAt content 0 s0
          have hps : pySlice content 0 s0 = content.take s0 := by
            unfold pySlice
            rw [List.drop_zero, Nat.sub_zero]
          rw [hps] at hocc
          rw [takeWhile_take_of_strip_ne_nil hpt] at hocc
          simpa using hocc
      · simp at hpre
    · left
      exact (hbmem sec hbs).2.2

/-- Witness for C7 on a document starting with whitespace before its first
header: the untitled leading section records offset 0 but its text sits at
the leading-whitespace count 1. -/
theorem c7_section_offsets_amended_witness :
    (⟨[], "hi".toList, 0⟩ : Sec) ∈ split_by_sections " hi\n# T\nbody".toList ∧
    (occursAtB " hi\n# T\nbody".toList 0 "hi".toList = true ∨
      (([] : List Char) = [] ∧ (0 : Nat) = 0 ∧
        occursAtB " hi\n# T\nbody".toList
          ((" hi\n# T\nbody".toList.takeWhile isPySpaceB).length) "hi".toList = true)) :=
  ⟨by decide, c7_section_offsets_amended " hi\n# T\nbody".toList ⟨[], "hi".toList, 0⟩
    (by decide)⟩

/-! ### Small sections give single whole-section chunks (claim C4, amended) -/

/-- When every section fits inside `chunk_size`, the per-section fold emits
exactly one chunk per section, spanning the whole section verbatim. -/
lemma chunk_sections_small {cfg : Config} {blocks : List ProtectedBlock} {fuel : Nat} :
    ∀ {secs : List Sec},
      (∀ sec ∈ secs, sec.text ≠ [] ∧ sec.text.length ≤ cfg.chunkSize) →
      ∀ idx, ∃ out, chunk_sections cfg blocks fuel secs idx = .ok out ∧
        List.Forall₂ (fun sec ch => ch.text = sec.text ∧ ch.startChar = sec.off ∧
          ch.endChar = sec.off + sec.text.length) secs out := by
  intro secs
  induction secs with
  | nil => exact fun _ idx => ⟨[], rfl, List.Forall₂.nil⟩
  | cons s rest ih =>
    intro hsmall idx
    obtain ⟨hne, hlen⟩ := hsmall s (by simp)
    obtain ⟨out', hout', hfa'⟩ := ih (fun x hx => hsmall x (by simp [hx])) (idx + 1)
    refine ⟨(⟨s.text, s.title, s.off, s.off + s.text.length, idx, has_latex s.text,
        (has_code s.text).1, (has_code s.text).2,
        classify_chunk_type s.text (has_latex s.text) (has_code s.text).1⟩ : ChunkR)
      :: out', ?_, List.Forall₂.cons ⟨rfl, rfl, rfl⟩ hfa'⟩
    rw [chunk_sections]
    simp only [create_chunks, if_pos hlen, make_chunk, if_neg hne]
    simp [hout']

/-- A successful run of `_create_chunks` on a section that fits inside
`chunk_size` is exactly one chunk spanning the whole section verbatim. -/
lemma create_chunks_small_ok {cfg : Config} {text title : List Char}
    {off : Nat} {blocks : List ProtectedBlock} {idx fuel : Nat} {out : List ChunkR}
    (hlen : text.length ≤ cfg.chunkSize)
    (h : create_chunks cfg text title off blocks idx fuel = .ok out) :
    ∃ ch, out = [ch] ∧ ch.text = text ∧ ch.startChar = off ∧
      ch.endChar = off + text.length ∧ ch.chunkIndex = idx := by
  rw [create_chunks, if_pos hlen] at h
  split at h
  · cases h
  · rename_i ch heq
    injection h with h'
    obtain ⟨h1, -, h2, h3, h4, -⟩ := make_chunk_ok heq
    exact ⟨ch, h'.symm, h1, h2, h3, h4⟩

/-- Any successful run of the per-section fold decomposes into consecutive
per-section chunk groups, and every small section's group is the single
whole-section chunk. -/
lemma chunk_sections_decomp {cfg : Config} {blocks : List ProtectedBlock} {fuel : Nat} :
    ∀ {secs : List Sec} {idx : Nat} {out : List ChunkR},
      chunk_sections cfg blocks fuel secs idx = .ok out →
      ∃ css, out = css.flatten ∧
        List.Forall₂ (fun (sec : Sec) (cs : List ChunkR) =>
          sec.text.length ≤ cfg.chunkSize →
          ∃ ch, cs = [ch] ∧ ch.text = sec.text ∧ ch.startChar = sec.off ∧
            ch.endChar = sec.off + sec.text.length) secs css
  | [], idx, out, h => by
    rw [chunk_sections] at h
    injection h with h'
    exact ⟨[], by simp [← h'], List.Forall₂.nil⟩
  | s :: rest, idx, out, h => by
    rw [chunk_sections] at h
    split at h
    · cases h
    · rename_i cs₀ hcc
      split at h
      · cases h
      · rename_i more hmore
        injection h with h'
        obtain ⟨css', hflat, hfa⟩ := chunk_sections_decomp hmore
        refine ⟨cs₀ :: css', by simp [← h', hflat], List.Forall₂.cons ?_ hfa⟩
        intro hsmall
        obtain ⟨ch, hch, h1, h2, h3, -⟩ := create_chunks_small_ok hsmall hcc
        exact ⟨ch, hch, h1, h2, h3⟩

/-- C4 amended: for every successful run, the document's chunks split into
consecutive per-section groups, and every section whose text fits inside
`chunk_size` contributes exactly one chunk regardless of `min_chunk_size`,
its text equal to the section's text exactly as the splitter produced it and
its span `[section offset, section offset + section text length)`. -/
theorem c4_small_sections_single_chunk (cfg : Config) (fuel : Nat) (content : List Char)
    (chunks : List ChunkR) (h : chunk_document cfg fuel content = .ok chunks) :
    ∃ css, chunks = css.flatten ∧
      List.Forall₂ (fun (sec : Sec) (cs : List ChunkR) =>
        sec.text.length ≤ cfg.chunkSize →
        ∃ ch, cs = [ch] ∧ ch.text = sec.text ∧ ch.startChar = sec.off ∧
          ch.endChar = sec.off + sec.text.length)
        (documentSections cfg content) css := by
  rw [chunk_document] at h
  split at h
  · rename_i hblank
    injection h with h'
    subst h'
    refine ⟨[], rfl, ?_⟩
    unfold documentSections
    rw [if_pos hblank]
    exact List.Forall₂.nil
  · rename_i hblank
    obtain ⟨css, hflat, hfa⟩ := chunk_sections_decomp h
    refine ⟨css, hflat, ?_⟩
    unfold documentSections
    rw [if_neg hblank]
    exact hfa

/-- Witness for the amended C4 on a document whose first section is small
and whose second section is too large for one chunk. -/
theorem c4_small_sections_single_chunk_witness :
    chunk_document ⟨20, 0, 5, true⟩ 40 c4WitnessDoc =
      .ok [⟨"# A\nxx".toList, ['A'], 0, 6, 0, false, false, none, "theory".toList⟩,
           ⟨"# B\n".toList ++ List.replicate 16 'b', ['B'], 7, 27, 1, false, false, none,
             "theory".toList⟩,
           ⟨List.replicate 14 'b', ['B'], 27, 41, 2, false, false, none,
             "theory".toList⟩] ∧
    ∃ css,
      ([⟨"# A\nxx".toList, ['A'], 0, 6, 0, false, false, none, "theory".toList⟩,
        ⟨"# B\n".toList ++ List.replicate 16 'b', ['B'], 7, 27, 1, false, false, none,
          "theory".toList⟩,
        ⟨List.replicate 14 'b', ['B'], 27, 41, 2, false, false, none,
          ("theory".toList : List Char)⟩] : List ChunkR) = css.flatten ∧
      List.Forall₂ (fun (sec : Sec) (cs : List ChunkR) =>
        sec.text.length ≤ (20 : Nat) →
        ∃ ch, cs = [ch] ∧ ch.text = sec.text ∧ ch.startChar = sec.off ∧
          ch.endChar = sec.off + sec.text.length)
        (documentSections ⟨20, 0, 5, true⟩ c4WitnessDoc) css :=
  ⟨by rfl, c4_small_sections_single_chunk ⟨20, 0, 5, true⟩ 40 c4WitnessDoc _ (by rfl)⟩

/-! ### Chunk-index density (claim C6) -/

/-- Reversing a range extended on the right. -/
lemma range'_reverse_concat (a n : Nat) :
    (List.range' a (n + 1)).reverse = (a + n) :: (List.range' a n).reverse := by
  rw [List.range'_concat]
  simp

/-- Through the splitting loop, the chunk indices of the accumulator (held
in reverse) stay the reversed range starting at `idx₀`, so the final list
carries the dense range. -/
lemma create_chunks_loop_map_index (cfg : Config) (text sectionTitle : List Char)
    (offset : Nat) (blocks : List ProtectedBlock) (idx₀ : Nat) :
    ∀ fuel pos idx acc out,
      create_chunks_loop cfg text sectionTitle offset blocks fuel pos idx acc = .ok out →
      idx = idx₀ + acc.length →
      acc.map (fun c => c.chunkIndex) = (List.range' idx₀ acc.length).reverse →
      out.map (fun c => c.chunkIndex) = List.range' idx₀ out.length := by
  intro fuel
  induction fuel with
  | zero => intro pos idx acc out h _ _; simp [create_chunks_loop] at h
  | succ fuel ih =>
    intro pos idx acc out h hidx hmap
    rw [create_chunks_loop] at h
    split at h
    · -- pos < len: the compiler splits on acc first
      split at h
      · -- acc = []: only the emit branch is reachable
        simp only [] at h
        split at h
        · split at h
          · exact absurd h (by simp)
          · rename_i ch heq
            obtain ⟨-, -, -, -, hci, -⟩ := make_chunk_ok heq
            refine ih _ _ _ _ h ?_ ?_
            · simp [hidx]
            · simp [hci, hidx, List.range'_one]
        · exact absurd h (by simp)
      · -- acc = last :: rest
        rename_i last rest
        simp only [] at h
        split at h
        · -- emit
          split at h
          · exact absurd h (by simp)
          · rename_i ch heq
            obtain ⟨-, -, -, -, hci, -⟩ := make_chunk_ok heq
            refine ih _ _ _ _ h ?_ ?_
            · simp [hidx, Nat.add_assoc]
            · show (ch :: last :: rest).map (fun c => c.chunkIndex) =
                (List.range' idx₀ (ch :: last :: rest).length).reverse
              rw [List.length_cons, range'_reverse_concat]
              simp [hci, hidx, hmap]
        · -- absorb
          split at h
          · exact absurd h (by simp)
          · rename_i ch heq
            obtain ⟨-, -, -, -, hci, -⟩ := make_chunk_ok heq
            refine ih _ _ _ _ h ?_ ?_
            · simpa using hidx
            · simpa [hci] using hmap
    · -- loop exit
      injection h with h'
      subst h'
      simp [List.map_reverse, hmap]

/-- `_create_chunks` numbers its output densely from `startIndex`. -/
lemma create_chunks_map_index {cfg : Config} {text sectionTitle : List Char}
    {offset : Nat} {blocks : List ProtectedBlock} {startIndex fuel : Nat}
    {out : List ChunkR}
    (h : create_chunks cfg text sectionTitle offset blocks startIndex fuel = .ok out) :
    out.map (fun c => c.chunkIndex) = List.range' startIndex out.length := by
  rw [create_chunks] at h
  split at h
  · split at h
    · exact absurd h (by simp)
    · rename_i ch heq
      obtain ⟨-, -, -, -, hci, -⟩ := make_chunk_ok heq
      injection h with h'
      subst h'
      simp [hci, List.range'_one]
  · exact create_chunks_loop_map_index cfg text sectionTitle offset blocks startIndex
      fuel 0 startIndex [] out h (by simp) (by simp)

/-- The per-section fold numbers the concatenated output densely. -/
lemma chunk_sections_map_index {cfg : Config} {blocks : List ProtectedBlock} {fuel : Nat} :
    ∀ {secs : List Sec} {idx : Nat} {out : List ChunkR},
      chunk_sections cfg blocks fuel secs idx = .ok out →
      out.map (fun c => c.chunkIndex) = List.range' idx out.length
  | [], idx, out, h => by
    injection h with h'
    subst h'
    rfl
  | s :: rest, idx, out, h => by
    rw [chunk_sections] at h
    split at h
    · exact absurd h (by simp)
    · rename_i cs heq
      split at h
      · exact absurd h (by simp)
      · rename_i more hmore
        injection h with h'
        subst h'
        have h1 := create_chunks_map_index heq
        have h2 := chunk_sections_map_index hmore
        simp only [List.map_append, h1, h2, List.length_append]
        rw [Nat.add_comm cs.length more.length, ← List.range'_append_1]

/-- C6: the chunk indices of every successfully produced document form the
dense 0-based sequence `0, 1, 2, …` in emission order across all sections;
absorbing a short tail into the previous chunk consumes no index. -/
theorem c6_dense_indices (cfg : Config) (fuel : Nat) (content : List Char)
    (chunks : List ChunkR) (h : chunk_document cfg fuel content = .ok chunks) :
    chunks.map (fun c => c.chunkIndex) = List.range chunks.length := by
  rw [chunk_document] at h
  split at h
  · cases h; rfl
  · rw [List.range_eq_range']
    exact chunk_sections_map_index h

/-- Witness for C6 on Scenario B's two-chunk document. -/
theorem c6_dense_indices_witness :
    chunk_document ⟨20, 5, 5, true⟩ 40 (List.replicate 30 'a') =
      .ok [⟨List.replicate 20 'a', [], 0, 20, 0, false, false, none, "theory".toList⟩,
           ⟨List.replicate 15 'a', [], 15, 30, 1, false, false, none, "theory".toList⟩] ∧
    ([⟨List.replicate 20 'a', [], 0, 20, 0, false, false, none, "theory".toList⟩,
      ⟨List.replicate 15 'a', [], 15, 30, 1, false, false, none,
        ("theory".toList : List Char)⟩] : List ChunkR).map (fun c => c.chunkIndex) =
      List.range 2 :=
  ⟨by rfl, c6_dense_indices ⟨20, 5, 5, true⟩ 40 (List.replicate 30 'a') _ (by rfl)⟩

/-! ### Protected-block integrity under the amended hypotheses (claim C1) -/

/-- An index answered by `get?` lies inside the list. -/
lemma get?_lt_length {c : List Char} {n : Nat} {ch : Char} (h : c.get? n = some ch) :
    n < c.length := by
  by_contra hcon
  rw [List.get?_eq_none.mpr (by omega)] at h
  cases h

/-- A display-math match starts before its end and ends inside the document. -/
lemma displayMatchAt_bounds {c : List Char} {i e : Nat} {a : Unit}
    (h : displayMatchAt c i = some (e, a)) : i < e ∧ e ≤ c.length := by
  unfold displayMatchAt at h
  split at h
  · simp only [] at h
    split at h
    · rename_i hcond
      injection h with h'
      injection h' with h1 h2
      have := get?_lt_length hcond.2.2
      omega
    · cases h
  · cases h

/-- An inline-math match starts before its end and ends inside the document. -/
lemma inlineMatchAt_bounds {c : List Char} {i e : Nat} {a : Unit}
    (h : inlineMatchAt c i = some (e, a)) : i < e ∧ e ≤ c.length := by
  unfold inlineMatchAt at h
  split at h
  · simp only [] at h
    split at h
    · rename_i hcond
      injection h with h'
      injection h' with h1 h2
      have := get?_lt_length hcond.2.1
      omega
    · cases h
  · cases h

/-- A successful lazy fence search yields an occurrence at or past its start. -/
lemma findFenceFrom_some {c : List Char} {j k : Nat} (h : findFenceFrom c j = some k) :
    j ≤ k ∧ occursAtB c k fenceL = true := by
  unfold findFenceFrom at h
  have hp := List.find?_some h
  simp only [Bool.and_eq_true, decide_eq_true_eq] at hp
  exact ⟨hp.1, hp.2⟩

/-- A fenced-code match starts before its end and ends inside the document. -/
lemma codeMatchAt_bounds {c : List Char} {i e : Nat} {a : List Char}
    (h : codeMatchAt c i = some (e, a)) : i < e ∧ e ≤ c.length := by
  unfold codeMatchAt at h
  split at h
  · simp only [] at h
    split at h
    · split at h
      · rename_i k hk
        injection h with h'
        injection h' with h1 h2
        obtain ⟨hjk, hocc⟩ := findFenceFrom_some hk
        unfold occursAtB at hocc
        rw [decide_eq_true_eq] at hocc
        have hkf := occurrence_le (show fenceL ≠ [] by decide) hocc
        have hfl : fenceL.length = 3 := rfl
        omega
      · cases h
    · cases h
  · cases h

/-- Membership through the stable insertion. -/
lemma mem_insertByStart {x b : ProtectedBlock} :
    ∀ {l : List ProtectedBlock}, x ∈ insertByStart b l ↔ x = b ∨ x ∈ l
  | [] => by simp [insertByStart]
  | y :: ys => by
    rw [insertByStart]
    split
    · simp
    · rw [List.mem_cons, List.mem_cons, mem_insertByStart]
      tauto

/-- Sorting by start position permutes the blocks: membership is unchanged. -/
lemma mem_sortByStart {x : ProtectedBlock} :
    ∀ {l : List ProtectedBlock}, x ∈ sortByStart l ↔ x ∈ l
  | [] => Iff.rfl
  | y :: ys => by
    show x ∈ insertByStart y (sortByStart ys) ↔ _
    rw [mem_insertByStart, mem_sortByStart, List.mem_cons]

/-- Every protected block of a document is a nonempty span inside it. -/
lemma find_protected_blocks_bounds {content : List Char} {b : ProtectedBlock}
    (hb : b ∈ find_protected_blocks content) :
    b.start < b.stop ∧ b.stop ≤ content.length := by
  unfold find_protected_blocks at hb
  rw [mem_sortByStart, List.mem_append, List.mem_append] at hb
  rcases hb with (hb | hb) | hb
  · rw [List.mem_map] at hb
    obtain ⟨m, hm, hbm⟩ := hb
    unfold displayMatches at hm
    have hmm := (scanAux_mem (fun j e a hj => (displayMatchAt_bounds hj).1) hm).1
    have hB := displayMatchAt_bounds hmm
    rw [← hbm]
    exact hB
  · rw [List.mem_map] at hb
    obtain ⟨m, hm, hbm⟩ := hb
    unfold inlineMatches at hm
    have hmm := (scanAux_mem (fun j e a hj => (inlineMatchAt_bounds hj).1) hm).1
    have hB := inlineMatchAt_bounds hmm
    rw [← hbm]
    exact hB
  · rw [List.mem_map] at hb
    obtain ⟨m, hm, hbm⟩ := hb
    unfold codeMatches at hm
    have hmm := (scanAux_mem (fun j e a hj => (codeMatchAt_bounds hj).1) hm).1
    have hB := codeMatchAt_bounds hmm
    rw [← hbm]
    exact hB

/-- Unpacking the Boolean disjointness checker into the pairwise relation. -/
lemma blocksDisjoint_spec {content : List Char} (h : blocksDisjointB content = true) :
    List.Pairwise (fun b b' => b.stop ≤ b'.start ∨ b'.stop ≤ b.start)
      (find_protected_blocks content) := by
  unfold blocksDisjointB at h
  exact of_decide_eq_true h

/-- Unpacking the Boolean delimiter-clearance checker: every delimiter
occurrence lies wholly before or wholly after every protected block. -/
lemma delimsClear_spec {content : List Char} (h : delimsClearOfBlocksB content = true) :
    ∀ b ∈ find_protected_blocks content, ∀ d ∈ boundaryDelims, ∀ i,
      occursAtB content i d = true → i + d.length ≤ b.start ∨ b.stop ≤ i := by
  unfold delimsClearOfBlocksB at h
  rw [List.all_eq_true] at h
  intro b hb d hd i hocc
  have hb' := h b hb
  rw [List.all_eq_true] at hb'
  have hd' := hb' d hd
  rw [List.all_eq_true] at hd'
  have hdne : d ≠ [] := by
    have hall : ∀ q ∈ boundaryDelims, q ≠ [] := by decide
    exact hall d hd
  have hile : i + d.length ≤ content.length := by
    unfold occursAtB at hocc
    rw [decide_eq_true_eq] at hocc
    exact occurrence_le hdne hocc
  have hdl : 1 ≤ d.length := List.length_pos.mpr hdne
  have hi := hd' i (by rw [List.mem_range]; omega)
  simp only [hocc, Bool.not_true, Bool.false_or, Bool.or_eq_true, decide_eq_true_eq] at hi
  exact hi

/-- An occurrence inside a slice is an occurrence in the whole text, shifted
by the slice's start. -/
lemma occursAt_slice_transfer {text : List Char} {a b i : Nat} {d : List Char}
    (h : ((pySlice text a b).drop i).take d.length = d) :
    (text.drop (a + i)).take d.length = d := by
  unfold pySlice at h
  rw [List.drop_take, List.drop_drop] at h
  rw [List.take_take] at h
  have hlen := congrArg List.length h
  rw [List.length_take] at hlen
  have h1 : min d.length (b - a - i) ≤ d.length := Nat.min_le_left _ _
  have h3 : min d.length (b - a - i) = d.length := by omega
  rw [h3] at h
  exact h

/-- The section end is a safe position when every block fits the section. -/
lemma length_safePt {text : List Char} {blocks : List ProtectedBlock}
    (hbounds : ∀ b ∈ blocks, b.start < b.stop ∧ b.stop ≤ text.length) :
    safePt blocks text.length := by
  intro b hb hcon
  have := hbounds b hb
  omega

/-- A successful backward break over a window of the text is safe whenever no
break delimiter occurrence overlaps a block. -/
lemma backwardBreak_slice_safe {text : List Char} {blocks : List ProtectedBlock}
    (hdelims : ∀ b ∈ blocks, ∀ d ∈ boundaryDelims, ∀ i, occursAtB text i d = true →
      i + d.length ≤ b.start ∨ b.stop ≤ i)
    {ss tE r : Nat} (h : backwardBreak (pySlice text ss tE) ss = some r) :
    safePt blocks r := by
  have hocc : ∃ d ∈ boundaryDelims, ∃ k,
      ((pySlice text ss tE).drop k).take d.length = d ∧ r = ss + k + d.length := by
    unfold backwardBreak at h
    simp only [] at h
    split at h
    · rename_i r' hr'
      injection h with h'
      subst h'
      split at hr'
      · rename_i pb hpb
        split at hr'
        · injection hr' with hr'
          subst hr'
          obtain ⟨-, ho⟩ := pyRfind_some hpb
          exact ⟨['\n', '\n'], by decide, pb, ho, rfl⟩
        · cases hr'
      · cases hr'
    · split at h
      · rename_i r' hr'
        injection h with h'
        subst h'
        obtain ⟨p, hp, k, hk, hr₂⟩ := find_sentence_break_some hr' (by decide)
        obtain ⟨-, ho⟩ := pyRfind_some hk
        refine ⟨p, ?_, k, ho, hr₂⟩
        have hsub : ∀ q ∈ sentencePuncts, q ∈ boundaryDelims := by decide
        exact hsub p hp
      · split at h
        · rename_i lb hlb
          split at h
          · injection h with h'
            subst h'
            obtain ⟨-, ho⟩ := pyRfind_some hlb
            exact ⟨['\n'], by decide, lb, ho, rfl⟩
          · cases h
        · cases h
  obtain ⟨d, hd, k, hk, hr⟩ := hocc
  have htrans := occursAt_slice_transfer hk
  intro b hb hcontra
  have hcase := hdelims b hb d hd (ss + k)
    (by unfold occursAtB; rw [decide_eq_true_eq]; exact htrans)
  omega

/-- The target snap is safe: it either leaves a safe target alone or moves it
to the end of a block, which disjointness keeps outside every other block. -/
lemma snapTargetEnd_safe {text : List Char} {blocks : List ProtectedBlock} {targetEnd : Nat}
    (hbounds : ∀ b ∈ blocks, b.start < b.stop ∧ b.stop ≤ text.length)
    (hdisj : List.Pairwise (fun b b' => b.stop ≤ b'.start ∨ b'.stop ≤ b.start) blocks) :
    safePt blocks (snapTargetEnd text targetEnd blocks 0) := by
  unfold snapTargetEnd
  simp only []
  split
  · rename_i b hf
    have hbmem := List.mem_of_find?_eq_some hf
    have hp := List.find?_some hf
    simp only [Bool.and_eq_true, decide_eq_true_eq] at hp
    intro b' hb' hcon
    by_cases heq : b' = b
    · subst heq
      omega
    · have hR := List.Pairwise.forall (fun x y hxy => Or.symm hxy) hdisj hb' hbmem heq
      have hbb := hbounds b hbmem
      have hbb' := hbounds b' hb'
      omega
  · rename_i hf
    have hnone := List.find?_eq_none.mp hf
    intro b hb hcon
    have hx := hnone b hb
    simp only [Bool.and_eq_true, decide_eq_true_eq] at hx
    have hbb := hbounds b hb
    omega

/-- The whole boundary search lands on a safe position under the amended
hypotheses: disjoint in-range blocks and delimiters clear of all blocks. -/
lemma find_safe_boundary_safe {text : List Char} {blocks : List ProtectedBlock}
    {start targetEnd : Nat}
    (hbounds : ∀ b ∈ blocks, b.start < b.stop ∧ b.stop ≤ text.length)
    (hdisj : List.Pairwise (fun b b' => b.stop ≤ b'.start ∨ b'.stop ≤ b.start) blocks)
    (hdelims : ∀ b ∈ blocks, ∀ d ∈ boundaryDelims, ∀ i, occursAtB text i d = true →
      i + d.length ≤ b.start ∨ b.stop ≤ i) :
    safePt blocks (find_safe_boundary text start targetEnd blocks 0) := by
  unfold find_safe_boundary
  simp only []
  split
  · rename_i r hr
    exact backwardBreak_slice_safe hdelims hr
  · exact snapTargetEnd_safe hbounds hdisj

/-- Each iteration's resolved end position is safe. -/
lemma stepEndPos_safe {cfg : Config} {text : List Char} {blocks : List ProtectedBlock}
    {pos : Nat}
    (hbounds : ∀ b ∈ blocks, b.start < b.stop ∧ b.stop ≤ text.length)
    (hdisj : List.Pairwise (fun b b' => b.stop ≤ b'.start ∨ b'.stop ≤ b.start) blocks)
    (hdelims : ∀ b ∈ blocks, ∀ d ∈ boundaryDelims, ∀ i, occursAtB text i d = true →
      i + d.length ≤ b.start ∨ b.stop ≤ i) :
    safePt blocks (stepEndPos cfg text blocks 0 pos) := by
  unfold stepEndPos
  simp only []
  split
  · exact find_safe_boundary_safe hbounds hdisj hdelims
  · rename_i hlt
    intro b hb hcon
    have hbb := hbounds b hb
    have := Nat.min_le_right (pos + cfg.chunkSize) text.length
    omega

/-- Loop safety invariant: with zero overlap, a safe cursor and a safe
accumulator, every chunk of a successful run has safe endpoints. -/
lemma create_chunks_loop_safe (cfg : Config) (text sectionTitle : List Char)
    (blocks : List ProtectedBlock)
    (hov : cfg.overlap = 0)
    (hbounds : ∀ b ∈ blocks, b.start < b.stop ∧ b.stop ≤ text.length)
    (hdisj : List.Pairwise (fun b b' => b.stop ≤ b'.start ∨ b'.stop ≤ b.start) blocks)
    (hdelims : ∀ b ∈ blocks, ∀ d ∈ boundaryDelims, ∀ i, occursAtB text i d = true →
      i + d.length ≤ b.start ∨ b.stop ≤ i) :
    ∀ fuel pos idx acc out,
      create_chunks_loop cfg text sectionTitle 0 blocks fuel pos idx acc = .ok out →
      safePt blocks pos →
      (∀ c ∈ acc, safePt blocks c.startChar ∧ safePt blocks c.endChar) →
      ∀ c ∈ out, safePt blocks c.startChar ∧ safePt blocks c.endChar := by
  intro fuel
  induction fuel with
  | zero => intro pos idx acc out h _ _; simp [create_chunks_loop] at h
  | succ fuel ih =>
    intro pos idx acc out h hpos hacc
    rw [create_chunks_loop] at h
    split at h
    · rename_i hp
      have hEsafe : safePt blocks (stepEndPos cfg text blocks 0 pos) :=
        stepEndPos_safe hbounds hdisj hdelims
      split at h
      · -- acc = []
        simp only [] at h
        split at h
        · split at h
          · exact absurd h (by simp)
          · rename_i ch heq
            obtain ⟨-, -, hcs, hce, -, -⟩ := make_chunk_ok heq
            refine ih _ _ _ _ h ?_ ?_
            · rcases stepNextPos_cases cfg text (stepEndPos cfg text blocks 0 pos)
                (ch.startChar - 0) with hN | ⟨hN, -, -⟩ | ⟨hN, -, -⟩
              · rw [hN]; exact hEsafe
              · rw [hN, hov, Nat.sub_zero]; exact hEsafe
              · rw [hN]; exact length_safePt hbounds
            · intro c hc
              rcases List.mem_cons.mp hc with hc | hc
              · subst hc
                exact ⟨by rw [hcs, Nat.zero_add]; exact hpos,
                       by rw [hce, Nat.zero_add]; exact hEsafe⟩
              · exact hacc c hc
        · exact absurd h (by simp)
      · -- acc = last :: rest
        rename_i last rest
        simp only [] at h
        split at h
        · -- emit branch
          split at h
          · exact absurd h (by simp)
          · rename_i ch heq
            obtain ⟨-, -, hcs, hce, -, -⟩ := make_chunk_ok heq
            refine ih _ _ _ _ h ?_ ?_
            · rcases stepNextPos_cases cfg text (stepEndPos cfg text blocks 0 pos)
                (ch.startChar - 0) with hN | ⟨hN, -, -⟩ | ⟨hN, -, -⟩
              · rw [hN]; exact hEsafe
              · rw [hN, hov, Nat.sub_zero]; exact hEsafe
              · rw [hN]; exact length_safePt hbounds
            · intro c hc
              rcases List.mem_cons.mp hc with hc | hc
              · subst hc
                exact ⟨by rw [hcs, Nat.zero_add]; exact hpos,
                       by rw [hce, Nat.zero_add]; exact hEsafe⟩
              · exact hacc c (by simp [hc])
        · -- absorb branch
          split at h
          · exact absurd h (by simp)
          · rename_i ch heq
            obtain ⟨-, -, hcs, hce, -, -⟩ := make_chunk_ok heq
            refine ih _ _ _ _ h ?_ ?_
            · rcases stepNextPos_cases cfg text (stepEndPos cfg text blocks 0 pos)
                (ch.startChar - 0) with hN | ⟨hN, -, -⟩ | ⟨hN, -, -⟩
              · rw [hN]; exact hEsafe
              · rw [hN, hov, Nat.sub_zero]; exact hEsafe
              · rw [hN]; exact length_safePt hbounds
            · intro c hc
              rcases List.mem_cons.mp hc with hc | hc
              · subst hc
                refine ⟨?_, by rw [hce, Nat.zero_add]; exact hEsafe⟩
                rw [hcs]
                exact (hacc last (by simp)).1
              · exact hacc c (by simp [hc])
    · injection h with h'
      subst h'
      intro c hc
      rw [List.mem_reverse] at hc
      exact hacc c hc

/-- `_create_chunks` at offset zero only yields chunks with safe endpoints,
under zero overlap and the block hypotheses. -/
lemma create_chunks_safe {cfg : Config} {text sectionTitle : List Char}
    {blocks : List ProtectedBlock} {startIndex fuel : Nat} {out : List ChunkR}
    (hov : cfg.overlap = 0)
    (hbounds : ∀ b ∈ blocks, b.start < b.stop ∧ b.stop ≤ text.length)
    (hdisj : List.Pairwise (fun b b' => b.stop ≤ b'.start ∨ b'.stop ≤ b.start) blocks)
    (hdelims : ∀ b ∈ blocks, ∀ d ∈ boundaryDelims, ∀ i, occursAtB text i d = true →
      i + d.length ≤ b.start ∨ b.stop ≤ i)
    (h : create_chunks cfg text sectionTitle 0 blocks startIndex fuel = .ok out) :
    ∀ c ∈ out, safePt blocks c.startChar ∧ safePt blocks c.endChar := by
  rw [create_chunks] at h
  split at h
  · split at h
    · exact absurd h (by simp)
    · rename_i ch heq
      injection h with h'
      subst h'
      intro c hc
      rw [List.mem_singleton] at hc
      subst hc
      obtain ⟨-, -, hcs, hce, -, -⟩ := make_chunk_ok heq
      constructor
      · rw [hcs]
        intro b hb hcon
        omega
      · rw [hce, Nat.zero_add]
        exact length_safePt hbounds
  · exact create_chunks_loop_safe cfg text sectionTitle blocks hov hbounds hdisj hdelims
      fuel 0 startIndex [] out h (fun b hb hcon => by omega) (by simp)

/-- C1 (amended): when the chunker runs with zero overlap on a headerless
document whose protected blocks are pairwise disjoint and clear of every
break delimiter occurrence, every protected block lies wholly inside or
wholly outside every produced chunk's covered range.  The original claim is
refuted by `c1_counterexample`: with a positive overlap the rewound next
chunk start can land strictly inside a block. -/
theorem c1_blocks_respected_amended (cfg : Config) (fuel : Nat) (content : List Char)
    (hov : cfg.overlap = 0) (hhd : headerMatches content = [])
    (hdisj : blocksDisjointB content = true)
    (hdel : delimsClearOfBlocksB content = true) :
    respectsBlocksB cfg fuel content = true := by
  have hbounds : ∀ b ∈ find_protected_blocks content,
      b.start < b.stop ∧ b.stop ≤ content.length :=
    fun b hb => find_protected_blocks_bounds hb
  have hdisj' := blocksDisjoint_spec hdisj
  have hdel' := delimsClear_spec hdel
  unfold respectsBlocksB
  split
  · rfl
  · rename_i cs hcd
    rw [chunk_document] at hcd
    split at hcd
    · injection hcd with h'
      subst h'
      simp
    · have hsec : sectionsOf cfg content = [⟨[], content, 0⟩] := by
        unfold sectionsOf
        split
        · unfold split_by_sections
          rw [hhd]
        · rfl
      rw [hsec] at hcd
      cases hcc : create_chunks cfg content [] 0 (find_protected_blocks content) 0 fuel with
      | error e =>
        simp only [chunk_sections, hcc] at hcd
        cases hcd
      | ok cs₀ =>
        simp only [chunk_sections, hcc, List.append_nil] at hcd
        injection hcd with h'
        subst h'
        have hsafe := create_chunks_safe hov hbounds hdisj' hdel' hcc
        rw [List.all_eq_true]
        intro c hc
        rw [List.all_eq_true]
        intro b hb
        obtain ⟨h1, h2⟩ := hsafe c hc
        have hbb := hbounds b hb
        have h1' := h1 b hb
        have h2' := h2 b hb
        unfold blockRespected
        simp only [Bool.or_eq_true, Bool.and_eq_true, decide_eq_true_eq]
        omega

/-- Witness for the amended claim C1: a display-math block inside filler
text with no headers and no break delimiters, chunked with `chunk_size=12`,
`overlap=0`, `min_chunk_size=1`. -/
theorem c1_blocks_respected_amended_witness :
    (⟨12, 0, 1, true⟩ : Config).overlap = 0 ∧
    headerMatches c1WitnessContent = [] ∧
    blocksDisjointB c1WitnessContent = true ∧
    delimsClearOfBlocksB c1WitnessContent = true ∧
    respectsBlocksB ⟨12, 0, 1, true⟩ 40 c1WitnessContent = true :=
  ⟨rfl, by decide, by decide, by decide,
    c1_blocks_respected_amended ⟨12, 0, 1, true⟩ 40 c1WitnessContent rfl (by decide)
      (by decide) (by decide)⟩

end HiggsHelper
